import Mathlib

/-!
# Verification of the AT-command codec (`src/at/at.py`)

Shallow embedding of the Python module `at.py`: a bidirectional codec between
wire-format AT command/response lines and structured values.  Python strings
are modelled as `List Char`; Python's `None | int | str | list` parameter
values as the inductive `AtParam`; raised exceptions as `Except ATErr`.
-/

namespace AT

/-- Python strings are modelled as lists of characters. -/
abbrev Str := List Char

/-- `pySplit sep s` models Python's `s.split(sep)` for a single-character
separator: it always returns at least one (possibly empty) piece. -/
def pySplit (sep : Char) : Str → List Str
  | [] => [[]]
  | c :: rest =>
    match pySplit sep rest with
    | [] => [[c]]
    | t :: ts => if c = sep then [] :: t :: ts else (c :: t) :: ts

/-- `pyLStrip p s` models Python's `s.lstrip(cs)` where `p` is membership in
the character set `cs` (or whitespace for `s.lstrip()`). -/
def pyLStrip (p : Char → Bool) (s : Str) : Str := s.dropWhile p

/-- `pyRStrip p s` models Python's `s.rstrip(cs)`. -/
def pyRStrip (p : Char → Bool) (s : Str) : Str := (s.reverse.dropWhile p).reverse

/-- `pyStrip p s` models Python's `s.strip(cs)` (both ends). -/
def pyStrip (p : Char → Bool) (s : Str) : Str := pyRStrip p (pyLStrip p s)

/-- Membership test for the small character classes used by the module
(`'AT'`, `'=?'`, `'"'`). -/
def inClass (cs : Str) (c : Char) : Bool := cs.contains c

/-- Uppercasing a Python string (`s.upper()`). -/
def pyUpper (s : Str) : Str := s.map Char.toUpper

/-- One decimal digit as a character. -/
def digitChar (d : Nat) : Char := Char.ofNat (48 + d)

/-- Fuel-driven digit expansion: with `n < fuel` this is the decimal digit
string of `n`, most significant digit first.  (The fuel makes the recursion
structural, so that it reduces inside the kernel.) -/
def natToStrFuel : Nat → Nat → Str
  | 0, _ => []
  | fuel + 1, n =>
    if n < 10 then [digitChar n]
    else natToStrFuel fuel (n / 10) ++ [digitChar (n % 10)]

/-- The decimal digits of a natural number, most significant first: the
characters of Python's `str(n)` for `n ≥ 0`. -/
def natToStr (n : Nat) : Str := natToStrFuel (n + 1) n

/-- Python's `str` of an `int`. -/
def intToStr : Int → Str
  | .ofNat n => natToStr n
  | .negSucc n => '-' :: natToStr (n + 1)

/-- Shape of the digit span accepted by Python's base-10 `int(·)`: one or
more ASCII digits, with single underscores allowed between two digits. -/
def udigits : Str → Bool
  | [] => false
  | [c] => c.isDigit
  | c :: '_' :: rest => c.isDigit && udigits rest
  | c :: rest => c.isDigit && udigits rest

/-- Numeric value of a digit string (underscores already filtered out). -/
def digitsVal (s : Str) : Nat := s.foldl (fun a c => 10 * a + (c.toNat - 48)) 0

/-- Models Python's `int(s)` in base 10; `Option.none` is the `ValueError`
raise.  Accepts optional surrounding whitespace, an optional sign, and digits
with single underscores between digits.  (CPython additionally accepts
non-ASCII decimal digits, which never occur in this codec's wire format.) -/
def pyIntOfChars (s : Str) : Option Int :=
  match pyStrip Char.isWhitespace s with
  | '+' :: rest => if udigits rest then some (digitsVal (rest.filter (· ≠ '_'))) else none
  | '-' :: rest => if udigits rest then some (-(digitsVal (rest.filter (· ≠ '_')) : Int)) else none
  | rest => if udigits rest then some (digitsVal (rest.filter (· ≠ '_'))) else none

/-- A Python parameter value as stored under the `'params'` key: `None`, an
`int`, a `str`, or a `list` of parameter values. -/
inductive AtParam where
  | none
  | int (i : Int)
  | str (s : Str)
  | arr (elems : List AtParam)

mutual

/-- Decidable equality for `AtParam` (the nested `List` blocks deriving). -/
def AtParam.decEq : (a b : AtParam) → Decidable (a = b)
  | .none, .none => .isTrue rfl
  | .none, .int _ => .isFalse (fun h => by cases h)
  | .none, .str _ => .isFalse (fun h => by cases h)
  | .none, .arr _ => .isFalse (fun h => by cases h)
  | .int _, .none => .isFalse (fun h => by cases h)
  | .int i, .int j =>
    if h : i = j then .isTrue (by rw [h]) else .isFalse (fun hh => h (by injection hh))
  | .int _, .str _ => .isFalse (fun h => by cases h)
  | .int _, .arr _ => .isFalse (fun h => by cases h)
  | .str _, .none => .isFalse (fun h => by cases h)
  | .str _, .int _ => .isFalse (fun h => by cases h)
  | .str s, .str t =>
    if h : s = t then .isTrue (by rw [h]) else .isFalse (fun hh => h (by injection hh))
  | .str _, .arr _ => .isFalse (fun h => by cases h)
  | .arr _, .none => .isFalse (fun h => by cases h)
  | .arr _, .int _ => .isFalse (fun h => by cases h)
  | .arr _, .str _ => .isFalse (fun h => by cases h)
  | .arr xs, .arr ys =>
    match AtParam.decEqList xs ys with
    | .isTrue h => .isTrue (by rw [h])
    | .isFalse h => .isFalse (fun hh => h (by injection hh))

/-- Decidable equality for lists of `AtParam`. -/
def AtParam.decEqList : (xs ys : List AtParam) → Decidable (xs = ys)
  | [], [] => .isTrue rfl
  | [], _ :: _ => .isFalse (fun h => by cases h)
  | _ :: _, [] => .isFalse (fun h => by cases h)
  | x :: xs, y :: ys =>
    match AtParam.decEq x y, AtParam.decEqList xs ys with
    | .isTrue h1, .isTrue h2 => .isTrue (by rw [h1, h2])
    | .isFalse h1, _ => .isFalse (fun h => h1 (by injection h))
    | .isTrue _, .isFalse h2 => .isFalse (fun h => h2 (by injection h))

end

instance : DecidableEq AtParam := AtParam.decEq

/-- Python's substring containment test (`needle in hay`). -/
def isSubstring (needle : Str) : Str → Bool
  | [] => needle.isEmpty
  | c :: rest => needle.isPrefixOf (c :: rest) || isSubstring needle rest

/-- A command dictionary `{'cmd': …, 'type': …, 'params': …}`.  The `type`
value is a Python string (`'SET'`, `'READ'` or `'TEST'` for the valid kinds;
`encode_command` rejects anything else). -/
structure AtCmd where
  cmd : Str
  type : Str
  params : List AtParam
deriving DecidableEq

/-- A response dictionary `{'response': …, 'error': …, 'params': …}` (its
constant `'type': 'RESPONSE'` entry is implicit in the Lean type). -/
structure AtResp where
  response : Str
  error : Bool
  params : List AtParam
deriving DecidableEq

/-- The result of `parse_string`: a single command dict, a list of command
dicts (concatenated SET commands), or a response dict. -/
inductive Decoded where
  | cmd (c : AtCmd)
  | cmds (cs : List AtCmd)
  | resp (r : AtResp)
deriving DecidableEq

/-- The exceptions `at.py` can raise, one constructor per raise site:
`malformedParameter` is the `ValueError` from `int(param_str)`,
`nestedArray` is `ATError("Nested array encountered")`,
`trailingData` is `ATError('Unexpected trailing data after OK')`,
`separatorMismatch` is the `ValueError` from the 2-tuple unpacking of
`split(':')` / `split('=')`,
`unknownCommandKindErr` is `ATError('Unknown command type: …')`, and
`emptyCommandList` is the `IndexError` from `cmd_dicts[0]` on an empty
sequence.  These are the spec §7 error kinds. -/
inductive ATErr where
  | malformedParameter (tok : Str)
  | nestedArray
  | trailingData
  | separatorMismatch (s : Str)
  | unknownCommandKindErr (t : Str)
  | emptyCommandList
deriving DecidableEq

instance {ε α : Type} [DecidableEq ε] [DecidableEq α] : DecidableEq (Except ε α) := fun
  | .ok a, .ok b =>
    if h : a = b then .isTrue (by rw [h]) else .isFalse (fun hh => h (by injection hh))
  | .ok _, .error _ => .isFalse (fun h => by cases h)
  | .error _, .ok _ => .isFalse (fun h => by cases h)
  | .error e, .error f =>
    if h : e = f then .isTrue (by rw [h]) else .isFalse (fun hh => h (by injection hh))

/-- `_parse_param` from `at.py`: an empty token is `None`; a token starting
with `'"'` is `param_str.strip('"')`; anything else goes through `int(·)`,
whose `ValueError` is the spec's `MalformedParameterError`. -/
def _parse_param (param_str : Str) : Except ATErr AtParam :=
  if param_str = [] then .ok .none
  else if param_str.head? = some '"' then .ok (.str (pyStrip (inClass ['"']) param_str))
  else
    match pyIntOfChars param_str with
    | some i => .ok (.int i)
    | Option.none => .error (.malformedParameter param_str)

/-- The value Python's `result.append(array)` appends when a token closed an
array: the accumulated list becomes an array parameter, and a never-opened
accumulator (`None`) becomes the absent parameter. -/
def closeArray : Option (List AtParam) → AtParam
  | Option.none => .none
  | Option.some xs => .arr xs

/-- Steps 3–6 of the `_parse_params` loop body, for one token whose
`startswith('(')` handling is already done: the `endswith(')')` check and
marker removal, the scalar parse, and the appends to accumulator/result. -/
def paramStepRest (result : List AtParam) (array : Option (List AtParam)) (p2 : Str) :
    Except ATErr (List AtParam × Option (List AtParam)) :=
  let endArr := p2.getLast? = some ')'
  let p3 := if endArr then p2.dropLast else p2
  match _parse_param p3 with
  | .error e => .error e
  | .ok v =>
    match array with
    | Option.some a =>
      if endArr then .ok (result ++ [closeArray (Option.some (a ++ [v]))], Option.none)
      else .ok (result, Option.some (a ++ [v]))
    | Option.none =>
      if endArr then .ok (result ++ [v, closeArray Option.none], Option.none)
      else .ok (result ++ [v], Option.none)

/-- The whole `_parse_params` loop body for one raw token: whitespace trim,
then the `startswith('(')` check (nested-array rejection / accumulator
opening), then `paramStepRest`. -/
def paramStep (st : List AtParam × Option (List AtParam)) (param : Str) :
    Except ATErr (List AtParam × Option (List AtParam)) :=
  let p1 := pyStrip Char.isWhitespace param
  if p1.head? = some '(' then
    match st.2 with
    | Option.some _ => .error .nestedArray
    | Option.none => paramStepRest st.1 (Option.some []) p1.tail
  else paramStepRest st.1 st.2 p1

/-- `_parse_params` from `at.py`: split on `','` (purely lexically, also
inside arrays) and run the accumulator loop.  An accumulator still open when
the tokens run out is discarded, as in the Python function, which returns
only `result`. -/
def _parse_params (params_str : Str) : Except ATErr (List AtParam) :=
  match (pySplit ',' params_str).foldlM paramStep ([], Option.none) with
  | .error e => .error e
  | .ok (result, _) => .ok result

/-- One iteration of `parse_string`'s SET loop:
`cmd, params = stmt.split('=')` — a 2-tuple unpacking that raises
`ValueError` (the spec's `SeparatorMismatchError`) unless the fragment
contains exactly one `'='` — then parameter parsing and `lstrip('AT')`
on the name. -/
def parse_set_stmt (stmt : Str) : Except ATErr AtCmd :=
  match pySplit '=' stmt with
  | [cmd, params] =>
    match _parse_params params with
    | .error e => .error e
    | .ok ps => .ok ⟨pyLStrip (inClass "AT".toList) cmd, "SET".toList, ps⟩
  | _ => .error (.separatorMismatch stmt)

/-- `parse_string` from `at.py` (the spec's `decode`). -/
def parse_string (cmd_str : Str) : Except ATErr Decoded :=
  let temp := pyUpper (pyStrip Char.isWhitespace cmd_str)
  if ("OK".toList).isPrefixOf temp then
    if temp.length ≠ ("OK".toList).length then .error .trailingData
    else .ok (.resp ⟨"OK".toList, false, []⟩)
  else if temp.head? = some '+' || temp.head? = some '%' then
    match pySplit ':' cmd_str with
    | [response, params] =>
      match _parse_params params with
      | .error e => .error e
      | .ok ps => .ok (.resp ⟨response, isSubstring "ERROR".toList response, ps⟩)
    | _ => .error (.separatorMismatch cmd_str)
  else if ("=?".toList).isSuffixOf cmd_str then
    .ok (.cmd ⟨pyRStrip (inClass "=?".toList) (pyLStrip (inClass "AT".toList) (pyUpper cmd_str)),
               "TEST".toList, []⟩)
  else if ['?'].isSuffixOf cmd_str then
    .ok (.cmd ⟨pyRStrip (inClass "=?".toList) (pyLStrip (inClass "AT".toList) (pyUpper cmd_str)),
               "READ".toList, []⟩)
  else
    match (pySplit ';' cmd_str).mapM parse_set_stmt with
    | .error e => .error e
    | .ok [c] => .ok (.cmd c)
    | .ok cs => .ok (.cmds cs)

mutual
/-- `_encode_param` from `at.py`, with the list branch of `_encode_params`'s
`isinstance` dispatch folded in as the `arr` case (Python reaches
`_encode_param` only for scalars and wraps lists in `_encode_params`). -/
def _encode_param : AtParam → Str
  | .none => [' ']
  | .str s => '"' :: (s ++ ['"'])
  | .int i => intToStr i
  | .arr xs => '(' :: (_encode_params xs ++ [')'])

/-- `_encode_params` from `at.py`: encode each element and join with `','`. -/
def _encode_params : List AtParam → Str
  | [] => []
  | [p] => _encode_param p
  | p :: q :: ps => _encode_param p ++ ',' :: _encode_params (q :: ps)
end

/-- The recursion of `encode_command` from `at.py`, with the growing
`result_strs` list represented by the already-joined accumulator string.
Python's `cmd_dicts[0]` raises `IndexError` on an empty sequence. -/
def encode_command_from (acc : Str) : List AtCmd → Except ATErr Str
  | [] => .error .emptyCommandList
  | c :: rest =>
    match (if c.type = "SET".toList then
             .ok (acc ++ c.cmd ++ '=' :: _encode_params c.params)
           else if c.type = "READ".toList then .ok (acc ++ c.cmd ++ ['?'])
           else if c.type = "TEST".toList then .ok (acc ++ c.cmd ++ "=?".toList)
           else (.error (.unknownCommandKindErr c.type) : Except ATErr Str)) with
    | .error e => .error e
    | .ok acc1 =>
      match rest with
      | [] => .ok acc1
      | _ :: _ => encode_command_from (acc1 ++ [';']) rest

/-- `encode_command` from `at.py` (the spec's `encode`); a single command is
passed as the singleton list (Python wraps a bare dict into a 1-tuple). -/
def encode_command (cmds : List AtCmd) : Except ATErr Str :=
  encode_command_from "AT".toList cmds

/-! ## Definitions used by the claims -/

/-- Is a parameter a scalar (not a Python list)? -/
def isScalar : AtParam → Bool
  | .arr _ => false
  | _ => true

/-- The round-trip claim's side condition: no array occurs inside another
array. -/
def noNestedArrays (ps : List AtParam) : Bool :=
  ps.all fun p =>
    match p with
    | .arr xs => xs.all isScalar
    | _ => true

/-- Name case-normalization: upper-case the stored command name, leaving
kind and parameters untouched. -/
def nameUpper (c : AtCmd) : AtCmd := ⟨pyUpper c.cmd, c.type, c.params⟩

/-- The wire text `encode_command` emits for one command of a valid kind:
its name followed by its kind marker. -/
def emitCmd (c : AtCmd) : Str :=
  c.cmd ++
    (if c.type = "SET".toList then '=' :: _encode_params c.params
     else if c.type = "READ".toList then ['?']
     else if c.type = "TEST".toList then "=?".toList
     else [])

/-- Text values that survive the wire format: none of the characters the
decoder splits on (`','`, `';'`, `'='`) occur, and no double quote sits
next to the added delimiters. -/
def wfText (s : Str) : Bool :=
  decide (',' ∉ s) && decide (';' ∉ s) && decide ('=' ∉ s) &&
  decide (s.head? ≠ some '"') && decide (s.getLast? ≠ some '"')

/-- Scalar parameters that survive the wire format. -/
def wfScalar : AtParam → Bool
  | .none => true
  | .int _ => true
  | .str s => wfText s
  | .arr _ => false

/-- Parameters that survive the decode∘encode round trip: well-formed
scalars, or non-empty single-level arrays of well-formed scalars other than
the singleton `[None]` (whose wire form `"( )"` re-parses as a malformed
token). -/
def wfParam : AtParam → Bool
  | .arr xs => xs.all wfScalar && !xs.isEmpty && decide (xs ≠ [.none])
  | p => wfScalar p

/-- Commands whose encoding decodes back to themselves (up to upper-casing the
name): a nonempty name whose upper-cased form neither starts with `'A'`/`'T'`
nor ends with `'='`/`'?'`; for SET additionally a name free of `';'`/`'='`
and a nonempty list of well-formed parameters; for READ/TEST no parameters;
other kinds are rejected by the encoder. -/
def wfCmd (c : AtCmd) : Bool :=
  decide (c.cmd ≠ []) &&
  decide ((pyUpper c.cmd).head? ≠ some 'A') &&
  decide ((pyUpper c.cmd).head? ≠ some 'T') &&
  decide ((pyUpper c.cmd).getLast? ≠ some '=') &&
  decide ((pyUpper c.cmd).getLast? ≠ some '?') &&
  (if c.type = "SET".toList then
      decide (';' ∉ c.cmd) && decide ('=' ∉ c.cmd) &&
        c.params.all wfParam && decide (c.params ≠ [])
   else if c.type = "READ".toList then decide (c.params = [])
   else if c.type = "TEST".toList then decide (c.params = [])
   else false)

/-! ## Basic lemmas about the string helpers -/

theorem pySplit_nil (sep : Char) : pySplit sep [] = [[]] := rfl

theorem pySplit_ne_nil (sep : Char) (s : Str) : pySplit sep s ≠ [] := by
  cases s with
  | nil => simp [pySplit]
  | cons c rest =>
    simp only [pySplit]
    split
    · simp
    · split <;> simp

theorem pySplit_not_mem {sep : Char} : ∀ {s : Str}, sep ∉ s → pySplit sep s = [s]
  | [], _ => rfl
  | c :: rest, h => by
    have hc : c ≠ sep := fun hh => h (hh ▸ List.mem_cons_self c rest)
    have hr : sep ∉ rest := fun hh => h (List.mem_cons_of_mem c hh)
    simp only [pySplit, pySplit_not_mem hr]
    rw [if_neg hc]

theorem pySplit_append {sep : Char} :
    ∀ {a : Str} (b : Str), sep ∉ a → pySplit sep (a ++ sep :: b) = a :: pySplit sep b
  | [], b, _ => by
    simp only [List.nil_append, pySplit, if_pos rfl]
    rcases h : pySplit sep b with _ | ⟨t, ts⟩
    · exact absurd h (pySplit_ne_nil sep b)
    · rfl
  | c :: a, b, h => by
    have hc : c ≠ sep := fun hh => h (hh ▸ List.mem_cons_self c a)
    have ha : sep ∉ a := fun hh => h (List.mem_cons_of_mem c hh)
    have ih := pySplit_append b ha
    simp only [List.cons_append, pySplit, List.append_eq, ih]
    rw [if_neg hc]

theorem pySplit_pair {sep : Char} {a b : Str} (ha : sep ∉ a) (hb : sep ∉ b) :
    pySplit sep (a ++ sep :: b) = [a, b] := by
  rw [pySplit_append b ha, pySplit_not_mem hb]

theorem length_pySplit (sep : Char) : ∀ s : Str, (pySplit sep s).length = s.count sep + 1
  | [] => rfl
  | c :: rest => by
    have ih := length_pySplit sep rest
    simp only [pySplit]
    split
    · next h => exact absurd h (pySplit_ne_nil sep rest)
    · next t ts h =>
      rw [h] at ih
      simp only [List.length_cons] at ih
      by_cases hc : c = sep
      · subst hc
        simp [List.count_cons, ih]
      · rw [if_neg hc]
        simp [List.count_cons, Ne.symm hc, ih, hc]

theorem pyLStrip_cons_neg {p : Char → Bool} {c : Char} (t : Str) (h : p c = false) :
    pyLStrip p (c :: t) = c :: t := by
  simp [pyLStrip, List.dropWhile_cons, h]

theorem pyRStrip_nil (p : Char → Bool) : pyRStrip p [] = [] := rfl

theorem pyRStrip_cons_neg {p : Char → Bool} {c : Char} (t : Str) (h : p c = false) :
    pyRStrip p (c :: t) = c :: pyRStrip p t := by
  simp only [pyRStrip, List.reverse_cons, List.dropWhile_append]
  split
  · next hEmpty =>
    rw [List.isEmpty_iff] at hEmpty
    simp [List.dropWhile_cons, h, hEmpty]
  · simp [List.dropWhile_cons, h]

theorem pyRStrip_concat_neg {p : Char → Bool} {c : Char} (t : Str) (h : p c = false) :
    pyRStrip p (t ++ [c]) = t ++ [c] := by
  simp [pyRStrip, List.dropWhile_cons, h]

theorem pyStrip_cons_neg {p : Char → Bool} {c : Char} (t : Str) (h : p c = false) :
    pyStrip p (c :: t) = c :: pyRStrip p t := by
  rw [pyStrip, pyLStrip_cons_neg t h, pyRStrip_cons_neg t h]

theorem pyLStrip_eq_self {p : Char → Bool} {s : Str}
    (hh : ∀ c, s.head? = some c → p c = false) : pyLStrip p s = s := by
  cases s with
  | nil => rfl
  | cons c t => exact pyLStrip_cons_neg t (hh c rfl)

theorem pyRStrip_eq_self {p : Char → Bool} {s : Str}
    (hl : ∀ c, s.getLast? = some c → p c = false) : pyRStrip p s = s := by
  unfold pyRStrip
  cases hr : s.reverse with
  | nil => simp_all
  | cons c t =>
    have hc : p c = false := by
      apply hl
      rw [← List.head?_reverse, hr]
      rfl
    rw [List.dropWhile_cons, hc]
    simp [← hr]

theorem pyStrip_eq_self {p : Char → Bool} {s : Str}
    (hh : ∀ c, s.head? = some c → p c = false)
    (hl : ∀ c, s.getLast? = some c → p c = false) : pyStrip p s = s := by
  rw [pyStrip, pyLStrip_eq_self hh, pyRStrip_eq_self hl]

/-! ## Character facts -/

theorem char_toNat_ofNat_valid {n : Nat} (h : n.isValidChar) : (Char.ofNat n).toNat = n := by
  simp only [Char.ofNat, dif_pos h, Char.ofNatAux, Char.toNat, UInt32.toNat]
  simp

theorem toUpper_idem (c : Char) : c.toUpper.toUpper = c.toUpper := by
  unfold Char.toUpper
  by_cases h : c.toNat ≥ 97 ∧ c.toNat ≤ 122
  · have hv : (c.toNat - 32).isValidChar := by
      constructor
      omega
    rw [if_pos h, char_toNat_ofNat_valid hv]
    have : ¬(c.toNat - 32 ≥ 97 ∧ c.toNat - 32 ≤ 122) := by omega
    rw [if_neg this]
  · rw [if_neg h, if_neg h]

theorem pyUpper_idem (s : Str) : pyUpper (pyUpper s) = pyUpper s := by
  simp only [pyUpper, List.map_map]
  exact List.map_congr_left fun c _ => toUpper_idem c

theorem isDigit_not_ws {c : Char} (h : c.isDigit = true) : c.isWhitespace = false := by
  by_contra hw
  rw [Bool.not_eq_false] at hw
  simp only [Char.isWhitespace, Bool.or_eq_true, decide_eq_true_eq] at hw
  rcases hw with ((rfl | rfl) | rfl) | rfl <;> revert h <;> decide

theorem ne_of_isDigit {c d : Char} (h : c.isDigit = true) (hd : d.isDigit = false) :
    c ≠ d := fun e => by subst e; simp_all

theorem digitChar_isDigit {d : Nat} (h : d < 10) : (digitChar d).isDigit = true := by
  interval_cases d <;> decide

theorem digitChar_toNat {d : Nat} (h : d < 10) : (digitChar d).toNat = 48 + d := by
  interval_cases d <;> decide

/-! ## The integer codec -/

theorem udigits_of_digits :
    ∀ {s : Str}, s ≠ [] → (∀ c ∈ s, c.isDigit = true) → udigits s = true
  | [], h, _ => absurd rfl h
  | [c], _, hd => by simp [udigits, hd c (List.mem_singleton_self c)]
  | c :: d :: t, _, hd => by
    have hdd : d.isDigit = true := hd d (by simp)
    have hdu : d ≠ '_' := ne_of_isDigit hdd (by decide)
    have ih : udigits (d :: t) = true :=
      udigits_of_digits (by simp) (fun x hx => hd x (List.mem_cons_of_mem c hx))
    have hred : udigits (c :: d :: t) = (c.isDigit && udigits (d :: t)) := by
      conv_lhs => rw [udigits.eq_def]
      split
      · simp_all
      · simp_all
      · next heq => exact absurd (by injection heq; simp_all) hdu
      · next heq => cases heq; rfl
    rw [hred, ih, hd c (by simp)]
    rfl

theorem digitsVal_append_digit (s : Str) (c : Char) :
    digitsVal (s ++ [c]) = 10 * digitsVal s + (c.toNat - 48) := by
  simp [digitsVal, List.foldl_append]

theorem natToStrFuel_spec :
    ∀ (fuel n : Nat), n < fuel →
      natToStrFuel fuel n ≠ [] ∧ (∀ c ∈ natToStrFuel fuel n, c.isDigit = true) ∧
      digitsVal (natToStrFuel fuel n) = n
  | 0, _, h => absurd h (by omega)
  | fuel + 1, n, _ => by
    simp only [natToStrFuel]
    by_cases h10 : n < 10
    · rw [if_pos h10]
      refine ⟨by simp, ?_, ?_⟩
      · intro c hc
        rw [List.mem_singleton] at hc
        subst hc
        exact digitChar_isDigit h10
      · simp only [digitsVal, List.foldl_cons, List.foldl_nil, digitChar_toNat h10]
        omega
    · rw [if_neg h10]
      have hdiv : n / 10 < fuel := by
        have := Nat.div_lt_self (show 0 < n by omega) (show 1 < 10 by omega)
        omega
      obtain ⟨_, hdig, hval⟩ := natToStrFuel_spec fuel (n / 10) hdiv
      refine ⟨by simp, ?_, ?_⟩
      · intro c hc
        rcases List.mem_append.1 hc with hc | hc
        · exact hdig c hc
        · rw [List.mem_singleton] at hc
          subst hc
          exact digitChar_isDigit (Nat.mod_lt n (by omega))
      · rw [digitsVal_append_digit, hval, digitChar_toNat (Nat.mod_lt n (by omega))]
        omega

theorem natToStr_spec (n : Nat) :
    natToStr n ≠ [] ∧ (∀ c ∈ natToStr n, c.isDigit = true) ∧ digitsVal (natToStr n) = n :=
  natToStrFuel_spec (n + 1) n (by omega)

theorem filter_underscore_of_digits {s : Str} (h : ∀ c ∈ s, c.isDigit = true) :
    s.filter (· ≠ '_') = s := by
  apply List.filter_eq_self.2
  intro c hc
  have hcu : c ≠ '_' := ne_of_isDigit (h c hc) (show ('_').isDigit = false by decide)
  simp [hcu]

theorem pyStrip_ws_of_digits {s : Str} (h : ∀ c ∈ s, c.isDigit = true) :
    pyStrip Char.isWhitespace s = s := by
  apply pyStrip_eq_self
  · intro c hc
    exact isDigit_not_ws (h c (List.mem_of_mem_head? (by simp [hc])))
  · intro c hc
    exact isDigit_not_ws (h c (List.mem_of_mem_getLast? (by simp [hc])))

/-- Round trip of the integer codec: Python's `int(str(i))` is `i`. -/
theorem pyIntOfChars_intToStr (i : Int) : pyIntOfChars (intToStr i) = some i := by
  cases i with
  | ofNat n =>
    obtain ⟨hne, hdig, hval⟩ := natToStr_spec n
    have hstrip : pyStrip Char.isWhitespace (natToStr n) = natToStr n :=
      pyStrip_ws_of_digits hdig
    have hhead : ∀ c t, natToStr n = c :: t → c.isDigit = true := by
      intro c t hct
      exact hdig c (hct ▸ List.mem_cons_self c t)
    unfold pyIntOfChars
    rw [show intToStr (Int.ofNat n) = natToStr n from rfl, hstrip]
    split
    · next heq => exact absurd (hhead _ _ heq) (by decide)
    · next heq => exact absurd (hhead _ _ heq) (by decide)
    · rw [udigits_of_digits hne hdig, if_pos rfl]
      rw [filter_underscore_of_digits hdig, hval]
      rfl
  | negSucc n =>
    obtain ⟨hne, hdig, hval⟩ := natToStr_spec (n + 1)
    have hstrip : pyStrip Char.isWhitespace ('-' :: natToStr (n + 1)) =
        '-' :: natToStr (n + 1) := by
      apply pyStrip_eq_self
      · intro c hc
        injection hc with hc
        subst hc
        decide
      · intro c hc
        rcases List.eq_nil_or_concat (natToStr (n + 1)) with h0 | ⟨t, e, h0⟩
        · exact absurd h0 hne
        · rw [List.concat_eq_append] at h0
          rw [h0, show '-' :: (t ++ [e]) = ('-' :: t) ++ [e] from rfl,
              List.getLast?_concat] at hc
          injection hc with hc
          subst hc
          refine isDigit_not_ws (hdig _ ?_)
          rw [h0]
          exact List.mem_append_right t (by simp)
    unfold pyIntOfChars
    rw [show intToStr (Int.negSucc n) = '-' :: natToStr (n + 1) from rfl, hstrip]
    split
    · next heq =>
      injection heq with h1 _
      exact absurd h1 (by decide)
    · next heq =>
      injection heq with _ heq
      subst heq
      rw [udigits_of_digits hne hdig, if_pos rfl]
      rw [filter_underscore_of_digits hdig, hval]
      simp [Int.negSucc_eq]
    · next h1 h2 =>
      exact ((h2 (natToStr (n + 1))) rfl).elim

/-! ## Quote stripping -/

theorem dropWhile_quote_replicate (m : Nat) :
    List.dropWhile (inClass ['"']) (List.replicate m '"') = [] := by
  rw [List.dropWhile_eq_nil_iff]
  intro c hc
  rw [List.eq_of_mem_replicate hc]
  rfl

theorem pyStrip_quotes_general (m n : Nat) (a : Str)
    (ha1 : a.head? ≠ some '"') (ha2 : a.getLast? ≠ some '"') :
    pyStrip (inClass ['"']) (List.replicate m '"' ++ a ++ List.replicate n '"') = a := by
  have hL : pyLStrip (inClass ['"']) (List.replicate m '"' ++ (a ++ List.replicate n '"')) =
      List.dropWhile (inClass ['"']) (a ++ List.replicate n '"') := by
    rw [pyLStrip, List.dropWhile_append, dropWhile_quote_replicate m]
    rfl
  rw [pyStrip, List.append_assoc, hL]
  cases a with
  | nil =>
    rw [List.nil_append, dropWhile_quote_replicate n]
    rfl
  | cons c t =>
    have hc : inClass ['"'] c = false := by
      have : c ≠ '"' := fun e => ha1 (by rw [List.head?_cons, e])
      simpa [inClass] using this
    rw [List.cons_append, List.dropWhile_cons, hc]
    simp only [Bool.false_eq_true, if_false]
    rw [pyRStrip]
    have hassoc : (c :: (t ++ List.replicate n '"')).reverse =
        List.replicate n '"' ++ (c :: t).reverse := by
      simp [List.reverse_replicate, List.append_assoc]
    rw [hassoc, List.dropWhile_append, dropWhile_quote_replicate n]
    simp only [List.isEmpty_nil, if_true]
    have hrev : List.dropWhile (inClass ['"']) (c :: t).reverse = (c :: t).reverse := by
      cases hr : (c :: t).reverse with
      | nil => rfl
      | cons d u =>
        have hd : inClass ['"'] d = false := by
          have hdl : (c :: t).getLast? = some d := by
            rw [← List.head?_reverse, hr, List.head?_cons]
          have : d ≠ '"' := fun e => ha2 (by rw [hdl, e])
          simpa [inClass] using this
        rw [List.dropWhile_cons, hd]
        simp
    rw [hrev, List.reverse_reverse]

/-! ## Claim theorems -/

/-- C2 (code_bug evaluation): on the line `"ATT=?"` the decoder's
class-based trimming (`lstrip('AT')`/`rstrip('=?')`) produces the command
name `""`, not the name `"T"` that literal fixed-length removal of the
`"AT"` prefix and `"=?"` suffix — the behaviour the spec specifies — would
produce. -/
theorem C2_class_strip_eval :
    parse_string "ATT=?".toList = .ok (.cmd ⟨[], "TEST".toList, []⟩) ∧
    ([] : Str) ≠ ['T'] := by
  decide

/-- C9 (confirmed): an empty params substring decodes to exactly one
`Absent` parameter, both for a SET command (`"AT+FOO="`) and for a prefixed
response (`"+FOO:"`); the underlying fact is `_parse_params "" = [None]`. -/
theorem C9_empty_params_absent :
    _parse_params [] = .ok [.none] ∧
    parse_string "AT+FOO=".toList = .ok (.cmd ⟨"+FOO".toList, "SET".toList, [.none]⟩) ∧
    parse_string "+FOO:".toList = .ok (.resp ⟨"+FOO".toList, false, [.none]⟩) := by
  decide

/-- C1 (counterexample): the command `{'cmd':'+FOO','type':'SET','params':[]}`
has no nested arrays, yet decoding its encoding yields `params = [None]`,
which differs from the original even after name case-normalization (the
name is untouched and already upper-case — only the params differ). -/
theorem C1_counterexample :
    noNestedArrays ([] : List AtParam) = true ∧
    encode_command [⟨"+FOO".toList, "SET".toList, []⟩] = .ok "AT+FOO=".toList ∧
    parse_string "AT+FOO=".toList = .ok (.cmd ⟨"+FOO".toList, "SET".toList, [.none]⟩) ∧
    nameUpper ⟨"+FOO".toList, "SET".toList, [.none]⟩ ≠
      nameUpper ⟨"+FOO".toList, "SET".toList, []⟩ := by
  decide

/-- C3 (counterexample): the line `"+FOO:\x22a:b\x22"` does contain a `':'`,
yet decode fails with the separator-mismatch error — because the code
unpacks `cmd_str.split(':')` into exactly two values instead of splitting
on the first `':'` only. -/
theorem C3_counterexample :
    (':' ∈ "+FOO:\"a:b\"".toList) ∧
    parse_string "+FOO:\"a:b\"".toList =
      .error (.separatorMismatch "+FOO:\"a:b\"".toList) := by
  decide

/-- C4 (counterexample): every `';'`-fragment of `"AT+FOO=\x22a=b\x22"`
contains a `'='`, yet decode fails with the separator-mismatch error —
because the code unpacks `stmt.split('=')` into exactly two values instead
of splitting on the first `'='` only. -/
theorem C4_counterexample :
    (∀ frag ∈ pySplit ';' "AT+FOO=\"a=b\"".toList, '=' ∈ frag) ∧
    parse_string "AT+FOO=\"a=b\"".toList =
      .error (.separatorMismatch "AT+FOO=\"a=b\"".toList) := by
  decide

/-- C6 (counterexample): decoding the response `"+A:\x22a\x22b\x22"` stores
the text content `a"b` — the interior double quote survives — whereas
removing *all* double quotes from the token would give `ab`. -/
theorem C6_counterexample :
    parse_string "+A:\"a\"b\"".toList =
      .ok (.resp ⟨"+A".toList, false, [.str ['a', '"', 'b']]⟩) ∧
    ['a', '"', 'b'] ≠ (['"', 'a', '"', 'b', '"'].filter (fun c => c ≠ '"')) := by
  decide

/-- C6 (amended): for a token that starts with a double quote, the decoded
text content is the token with its *leading and trailing runs* of double
quotes removed; interior double quotes are preserved. -/
theorem C6_amended (m n : Nat) (a : Str) (hm : 1 ≤ m)
    (ha1 : a.head? ≠ some '"') (ha2 : a.getLast? ≠ some '"') :
    _parse_param (List.replicate m '"' ++ a ++ List.replicate n '"') = .ok (.str a) := by
  obtain ⟨k, rfl⟩ : ∃ k, m = k + 1 := ⟨m - 1, by omega⟩
  rw [List.replicate_succ]
  unfold _parse_param
  rw [if_neg (by simp), if_pos (by simp)]
  rw [show '"' :: List.replicate k '"' ++ a ++ List.replicate n '"' =
      List.replicate (k + 1) '"' ++ a ++ List.replicate n '"' from by
        rw [List.replicate_succ]]
  rw [pyStrip_quotes_general (k + 1) n a ha1 ha2]

/-- Witness for C6 (amended) at the token `"ab"`. -/
theorem C6_amended_witness :
    _parse_param (List.replicate 1 '"' ++ "ab".toList ++ List.replicate 1 '"') =
      .ok (.str "ab".toList) :=
  C6_amended 1 1 "ab".toList (by decide) (by decide) (by decide)

/-- C5 (confirmed): `_parse_param` fails — with the malformed-parameter
error kind, carrying the offending token — exactly when the token is
nonempty, does not start with a double quote, and is not a valid base-10
integer (in the sense accepted by Python's `int`); and such a failure
propagates out of a full decode, e.g. for the line `"AT+FOO=x"`. -/
theorem C5_malformed_iff :
    (∀ tok : Str, _parse_param tok = .error (.malformedParameter tok) ↔
      (tok ≠ [] ∧ tok.head? ≠ some '"' ∧ pyIntOfChars tok = Option.none)) ∧
    parse_string "AT+FOO=x".toList = .error (.malformedParameter ['x']) := by
  constructor
  · intro tok
    constructor
    · intro h
      unfold _parse_param at h
      by_cases h1 : tok = []
      · rw [if_pos h1] at h
        cases h
      · rw [if_neg h1] at h
        by_cases h2 : tok.head? = some '"'
        · rw [if_pos h2] at h
          cases h
        · rw [if_neg h2] at h
          refine ⟨h1, h2, ?_⟩
          rcases h3 : pyIntOfChars tok with _ | i
          · rfl
          · rw [h3] at h
            cases h
    · rintro ⟨h1, h2, h3⟩
      unfold _parse_param
      rw [if_neg h1, if_neg h2, h3]
  · decide

/-- C8 (confirmed): a token whose (whitespace-trimmed) text ends with `')'`
while no array accumulator is open does not make the parser fail: the
token's scalar value is appended to the result, and then the never-opened
accumulator — Python's `None`, i.e. the `Absent` value — is appended as
well; e.g. `_parse_params "1)" = [1, None]`. -/
theorem C8_stray_close :
    (∀ (result : List AtParam) (param : Str) (v : AtParam),
      (pyStrip Char.isWhitespace param).head? ≠ some '(' →
      (pyStrip Char.isWhitespace param).getLast? = some ')' →
      _parse_param (pyStrip Char.isWhitespace param).dropLast = .ok v →
      paramStep (result, Option.none) param = .ok (result ++ [v, .none], Option.none)) ∧
    _parse_params "1)".toList = .ok [.int 1, .none] := by
  constructor
  · intro result param v h1 h2 h3
    simp only [paramStep, paramStepRest, if_neg h1, h2, closeArray]
    simp only [reduceIte]
    rw [h3]
  · decide

/-- Witness for C8 at the token `"1)"` with an empty result accumulator. -/
theorem C8_stray_close_witness :
    paramStep (([] : List AtParam), Option.none) "1)".toList =
      .ok ([.int 1, .none], Option.none) :=
  C8_stray_close.1 [] "1)".toList (.int 1) (by decide) (by decide) (by decide)

/-! ## The command encoder (C7) -/

theorem intercalate_singleton (s x : Str) : List.intercalate s [x] = x := by
  simp [List.intercalate]

theorem intercalate_cons_cons (s x y : Str) (l : List Str) :
    List.intercalate s (x :: y :: l) = x ++ s ++ List.intercalate s (y :: l) := by
  simp [List.intercalate, List.intersperse]

theorem encode_command_from_ok :
    ∀ (cmds : List AtCmd) (acc : Str), cmds ≠ [] →
      (∀ c ∈ cmds,
        c.type = "SET".toList ∨ c.type = "READ".toList ∨ c.type = "TEST".toList) →
      encode_command_from acc cmds = .ok (acc ++ List.intercalate [';'] (cmds.map emitCmd))
  | [], _, h, _ => absurd rfl h
  | c :: rest, acc, _, hv => by
    have hacc : (if c.type = "SET".toList then
          (.ok (acc ++ c.cmd ++ '=' :: _encode_params c.params) : Except ATErr Str)
        else if c.type = "READ".toList then .ok (acc ++ c.cmd ++ ['?'])
        else if c.type = "TEST".toList then .ok (acc ++ c.cmd ++ "=?".toList)
        else .error (.unknownCommandKindErr c.type)) = .ok (acc ++ emitCmd c) := by
      rcases hv c (by simp) with ht | ht | ht <;>
        simp [ht, emitCmd, List.append_assoc]
    cases rest with
    | nil =>
      unfold encode_command_from
      rw [hacc]
      rw [List.map_cons, List.map_nil, intercalate_singleton]
    | cons r rs =>
      have ih := encode_command_from_ok (r :: rs) (acc ++ emitCmd c ++ [';']) (by simp)
        (fun x hx => hv x (List.mem_cons_of_mem c hx))
      unfold encode_command_from
      rw [hacc]
      simp only [ih, List.map_cons]
      rw [intercalate_cons_cons]
      simp [List.append_assoc]

theorem encode_command_from_err :
    ∀ (cmds : List AtCmd) (acc : Str),
      (∃ c ∈ cmds,
        ¬(c.type = "SET".toList ∨ c.type = "READ".toList ∨ c.type = "TEST".toList)) →
      ∃ t, encode_command_from acc cmds = .error (.unknownCommandKindErr t)
  | [], _, h => by simp at h
  | c :: rest, acc, h => by
    by_cases hc : c.type = "SET".toList ∨ c.type = "READ".toList ∨ c.type = "TEST".toList
    · have hrest : ∃ x ∈ rest,
          ¬(x.type = "SET".toList ∨ x.type = "READ".toList ∨ x.type = "TEST".toList) := by
        rcases h with ⟨x, hx, hxv⟩
        rcases List.mem_cons.1 hx with rfl | hx
        · exact absurd hc hxv
        · exact ⟨x, hx, hxv⟩
      have hacc : ∃ a1, (if c.type = "SET".toList then
            (.ok (acc ++ c.cmd ++ '=' :: _encode_params c.params) : Except ATErr Str)
          else if c.type = "READ".toList then .ok (acc ++ c.cmd ++ ['?'])
          else if c.type = "TEST".toList then .ok (acc ++ c.cmd ++ "=?".toList)
          else .error (.unknownCommandKindErr c.type)) = .ok a1 := by
        rcases hc with ht | ht | ht <;> simp [ht]
      obtain ⟨a1, ha1⟩ := hacc
      cases rest with
      | nil => simp at hrest
      | cons r rs =>
        obtain ⟨t, ht⟩ := encode_command_from_err (r :: rs) (a1 ++ [';']) hrest
        refine ⟨t, ?_⟩
        unfold encode_command_from
        rw [ha1]
        exact ht
    · refine ⟨c.type, ?_⟩
      unfold encode_command_from
      push_neg at hc
      obtain ⟨h1, h2, h3⟩ := hc
      rw [if_neg h1, if_neg h2, if_neg h3]

/-- C7 (confirmed): for a non-empty command sequence, encoding emits the
`"AT"` prefix exactly once at the start of the line followed by each
command's name and kind marker (SET: `'='` plus encoded params, READ: `'?'`,
TEST: `"=?"`) joined by `';'`; and encoding fails with the
unknown-command-kind error exactly when some command's kind is none of
SET/READ/TEST. -/
theorem C7_encode_shape (cmds : List AtCmd) (hne : cmds ≠ []) :
    ((∀ c ∈ cmds,
        c.type = "SET".toList ∨ c.type = "READ".toList ∨ c.type = "TEST".toList) →
      encode_command cmds = .ok ("AT".toList ++ List.intercalate [';'] (cmds.map emitCmd))) ∧
    ((∃ c ∈ cmds,
        ¬(c.type = "SET".toList ∨ c.type = "READ".toList ∨ c.type = "TEST".toList)) ↔
      ∃ t, encode_command cmds = .error (.unknownCommandKindErr t)) := by
  constructor
  · intro hv
    exact encode_command_from_ok cmds "AT".toList hne hv
  · constructor
    · intro h
      exact encode_command_from_err cmds "AT".toList h
    · intro ⟨t, ht⟩
      by_contra hno
      push_neg at hno
      have hok := encode_command_from_ok cmds "AT".toList hne hno
      rw [encode_command, hok] at ht
      cases ht

/-- Witness for C7: a valid singleton SET command encodes to the expected
line, and a command with kind tag `'XX'` makes encoding fail. -/
theorem C7_encode_shape_witness :
    encode_command [⟨"+CEMODE".toList, "SET".toList, [.int 0]⟩] =
      .ok ("AT".toList ++ List.intercalate [';']
        ([(⟨"+CEMODE".toList, "SET".toList, [.int 0]⟩ : AtCmd)].map emitCmd)) ∧
    ∃ t, encode_command [⟨"+X".toList, "XX".toList, []⟩] =
      .error (.unknownCommandKindErr t) := by
  constructor
  · exact (C7_encode_shape _ (by decide)).1 (by decide)
  · exact (C7_encode_shape _ (by decide)).2.1 ⟨⟨"+X".toList, "XX".toList, []⟩, by decide, by decide⟩

/-! ## Error shapes of the parameter parser (for C3/C4) -/

theorem _parse_param_error_shape {t : Str} {e : ATErr} (h : _parse_param t = .error e) :
    ∃ tok, e = .malformedParameter tok := by
  unfold _parse_param at h
  by_cases h1 : t = []
  · rw [if_pos h1] at h
    cases h
  · rw [if_neg h1] at h
    by_cases h2 : t.head? = some '"'
    · rw [if_pos h2] at h
      cases h
    · rw [if_neg h2] at h
      rcases h3 : pyIntOfChars t with _ | i
      · rw [h3] at h
        injection h with h
        exact ⟨t, h.symm⟩
      · rw [h3] at h
        cases h

theorem paramStepRest_error_shape {result : List AtParam} {array : Option (List AtParam)}
    {p2 : Str} {e : ATErr} (h : paramStepRest result array p2 = .error e) :
    ∃ tok, e = .malformedParameter tok := by
  simp only [paramStepRest] at h
  rcases hp : _parse_param (if p2.getLast? = some ')' then p2.dropLast else p2) with e' | v
  · rw [hp] at h
    injection h with h
    exact h ▸ _parse_param_error_shape hp
  · rw [hp] at h
    rcases array with _ | a <;> dsimp only at h <;> split at h <;> cases h

theorem paramStep_error_shape {st : List AtParam × Option (List AtParam)} {tok : Str}
    {e : ATErr} (h : paramStep st tok = .error e) :
    e = .nestedArray ∨ ∃ t, e = .malformedParameter t := by
  simp only [paramStep] at h
  by_cases h1 : (pyStrip Char.isWhitespace tok).head? = some '('
  · rw [if_pos h1] at h
    rcases hst : st.2 with _ | a
    · rw [hst] at h
      exact Or.inr (paramStepRest_error_shape h)
    · rw [hst] at h
      injection h with h
      exact Or.inl h.symm
  · rw [if_neg h1] at h
    exact Or.inr (paramStepRest_error_shape h)

theorem foldl_paramStep_no_sep :
    ∀ (toks : List Str) (st : List AtParam × Option (List AtParam)) (x : Str),
      toks.foldlM paramStep st ≠ .error (.separatorMismatch x)
  | [], st, x => by
    intro hcontra
    cases hcontra
  | t :: ts, st, x => by
    rw [List.foldlM_cons]
    rcases hp : paramStep st t with e | st'
    · intro hcontra
      have he : (Except.error e : Except ATErr (List AtParam × Option (List AtParam))) =
          .error (.separatorMismatch x) := hcontra
      injection he with he
      rcases paramStep_error_shape hp with h | ⟨t2, h2⟩
      · rw [he] at h
        cases h
      · rw [he] at h2
        cases h2
    · exact foldl_paramStep_no_sep ts st' x

theorem _parse_params_no_sep (p : Str) (x : Str) :
    _parse_params p ≠ .error (.separatorMismatch x) := by
  unfold _parse_params
  rcases hf : (pySplit ',' p).foldlM paramStep ([], Option.none) with e | st
  · intro hcontra
    injection hcontra with hcontra
    exact foldl_paramStep_no_sep _ _ x (hf.trans (by rw [hcontra]))
  · rcases st with ⟨r, a⟩
    intro hcontra
    cases hcontra

/-- C3 (corrected, amended): for a line classified as a prefixed response
(`'+'`/`'%'` start, not `"OK"`), decode requires *exactly one* `':'` in the
line — `cmd_str.split(':')` is unpacked into a 2-tuple — failing with the
separator-mismatch error whenever the count of `':'` differs from one; with
exactly one `':'`, the label is the text before it, the params substring the
text after it, and the error flag is the substring test `"ERROR" in label`. -/
theorem C3_amended (s : Str)
    (hok : ("OK".toList).isPrefixOf (pyUpper (pyStrip Char.isWhitespace s)) = false)
    (hpre : (pyUpper (pyStrip Char.isWhitespace s)).head? = some '+' ∨
            (pyUpper (pyStrip Char.isWhitespace s)).head? = some '%') :
    (s.count ':' ≠ 1 → parse_string s = .error (.separatorMismatch s)) ∧
    (∀ a b : Str, s = a ++ ':' :: b → ':' ∉ a → ':' ∉ b →
      parse_string s =
        match _parse_params b with
        | .error e => .error e
        | .ok ps => .ok (.resp ⟨a, isSubstring "ERROR".toList a, ps⟩)) := by
  have hps : parse_string s =
      match pySplit ':' s with
      | [response, params] =>
        match _parse_params params with
        | .error e => .error e
        | .ok ps => .ok (.resp ⟨response, isSubstring "ERROR".toList response, ps⟩)
      | _ => .error (.separatorMismatch s) := by
    have hok2 : ¬(("OK".toList).isPrefixOf (pyUpper (pyStrip Char.isWhitespace s)) = true) := by
      intro hc
      rw [hok] at hc
      exact absurd hc (by decide)
    simp only [parse_string]
    rw [if_neg hok2, if_pos (by rcases hpre with h | h <;> simp [h])]
  constructor
  · intro hcount
    rw [hps]
    have hlen : (pySplit ':' s).length ≠ 2 := by
      rw [length_pySplit]
      omega
    rcases hsp : pySplit ':' s with _ | ⟨p1, _ | ⟨p2, _ | ⟨p3, prest⟩⟩⟩
    · rfl
    · rfl
    · rw [hsp] at hlen
      simp at hlen
    · rfl
  · intro a b hs ha hb
    rw [hps, hs, pySplit_pair ha hb]

/-- Witness for C3 (amended) on the line `"+F:1"` (branch hypotheses and the
one-colon split discharged concretely). -/
theorem C3_amended_witness :
    parse_string "+F:1".toList = .ok (.resp ⟨"+F".toList, false, [.int 1]⟩) := by
  have h := (C3_amended "+F:1".toList (by decide) (by decide)).2
    "+F".toList "1".toList (by decide) (by decide) (by decide)
  exact h.trans (by decide)

/-- Branch selection: a line rejected by the OK / response / TEST / READ
classifiers is handled by the SET loop. -/
theorem parse_string_set_branch (s : Str)
    (h1 : ("OK".toList).isPrefixOf (pyUpper (pyStrip Char.isWhitespace s)) = false)
    (h2 : ¬((pyUpper (pyStrip Char.isWhitespace s)).head? = some '+' ∨
        (pyUpper (pyStrip Char.isWhitespace s)).head? = some '%'))
    (h3 : ("=?".toList).isSuffixOf s = false) (h4 : (['?'].isSuffixOf s) = false) :
    parse_string s =
      match (pySplit ';' s).mapM parse_set_stmt with
      | .error e => .error e
      | .ok [c] => .ok (.cmd c)
      | .ok cs => .ok (.cmds cs) := by
  have h1b : ¬(("OK".toList).isPrefixOf (pyUpper (pyStrip Char.isWhitespace s)) = true) := by
    intro hc
    rw [h1] at hc
    exact absurd hc (by decide)
  have h3b : ¬((("=?".toList).isSuffixOf s) = true) := by
    intro hc
    rw [h3] at hc
    exact absurd hc (by decide)
  have h4b : ¬((['?'].isSuffixOf s) = true) := by
    intro hc
    rw [h4] at hc
    exact absurd hc (by decide)
  simp only [parse_string]
  rw [if_neg h1b, if_neg (by simpa using h2), if_neg h3b, if_neg h4b]

/-- C4 (corrected, amended): a line classified as SET is split on `';'` into
fragments handled left to right by the per-fragment parser; that parser
unpacks `stmt.split('=')` into a 2-tuple, so it fails with the
separator-mismatch error exactly when the fragment does not contain exactly
one `'='`; with exactly one `'='` the name is the (\`lstrip('AT')\`-stripped)
text before it and the params substring the text after it. -/
theorem C4_amended :
    (∀ s : Str,
      ("OK".toList).isPrefixOf (pyUpper (pyStrip Char.isWhitespace s)) = false →
      ¬((pyUpper (pyStrip Char.isWhitespace s)).head? = some '+' ∨
        (pyUpper (pyStrip Char.isWhitespace s)).head? = some '%') →
      ("=?".toList).isSuffixOf s = false → (['?'].isSuffixOf s) = false →
      parse_string s =
        match (pySplit ';' s).mapM parse_set_stmt with
        | .error e => .error e
        | .ok [c] => .ok (.cmd c)
        | .ok cs => .ok (.cmds cs)) ∧
    (∀ stmt : Str,
      parse_set_stmt stmt = .error (.separatorMismatch stmt) ↔ stmt.count '=' ≠ 1) ∧
    (∀ a b : Str, '=' ∉ a → '=' ∉ b →
      parse_set_stmt (a ++ '=' :: b) =
        match _parse_params b with
        | .error e => .error e
        | .ok ps => .ok ⟨pyLStrip (inClass "AT".toList) a, "SET".toList, ps⟩) := by
  refine ⟨?_, ?_, ?_⟩
  · exact parse_string_set_branch
  · intro stmt
    constructor
    · intro h
      intro hcount
      have hlen : (pySplit '=' stmt).length = 2 := by
        rw [length_pySplit]
        omega
      rcases hsp : pySplit '=' stmt with _ | ⟨p1, _ | ⟨p2, _ | ⟨p3, prest⟩⟩⟩
      · rw [hsp] at hlen
        simp at hlen
      · rw [hsp] at hlen
        simp at hlen
      · have hform : parse_set_stmt stmt =
            match _parse_params p2 with
            | .error e => .error e
            | .ok ps => .ok ⟨pyLStrip (inClass "AT".toList) p1, "SET".toList, ps⟩ := by
          unfold parse_set_stmt
          rw [hsp]
        rw [hform] at h
        rcases hpp : _parse_params p2 with e | ps
        · rw [hpp] at h
          injection h with h
          rw [h] at hpp
          exact _parse_params_no_sep p2 stmt hpp
        · rw [hpp] at h
          cases h
      · rw [hsp] at hlen
        simp at hlen
    · intro hcount
      have hlen : (pySplit '=' stmt).length ≠ 2 := by
        rw [length_pySplit]
        omega
      unfold parse_set_stmt
      rcases hsp : pySplit '=' stmt with _ | ⟨p1, _ | ⟨p2, _ | ⟨p3, prest⟩⟩⟩
      · rfl
      · rfl
      · rw [hsp] at hlen
        simp at hlen
      · rfl
  · intro a b ha hb
    unfold parse_set_stmt
    rw [pySplit_pair ha hb]

/-- Witness for C4 (amended): the single-fragment line `"AT+F=1"` decodes
through the `';'`/`'='` splits to the expected SET command. -/
theorem C4_amended_witness :
    parse_string "AT+F=1".toList = .ok (.cmd ⟨"+F".toList, "SET".toList, [.int 1]⟩) ∧
    parse_set_stmt ("AT+F".toList ++ '=' :: "1".toList) =
      .ok ⟨"+F".toList, "SET".toList, [.int 1]⟩ := by
  constructor
  · have h := C4_amended.1 "AT+F=1".toList (by decide) (by decide) (by decide) (by decide)
    exact h.trans (by decide)
  · have h := C4_amended.2.2 "AT+F".toList "1".toList (by decide) (by decide)
    exact h.trans (by decide)

/-! ## Case normalization of decode (C10) -/

theorem pyLStrip_pyUpper (p : Char → Bool) (s : Str) :
    pyLStrip p (pyUpper s) = pyUpper (s.dropWhile (p ∘ Char.toUpper)) := by
  simp [pyLStrip, pyUpper, List.dropWhile_map]

theorem pyRStrip_pyUpper (q : Char → Bool) (s : Str) :
    pyRStrip q (pyUpper s) = pyUpper (s.reverse.dropWhile (q ∘ Char.toUpper)).reverse := by
  simp only [pyRStrip, pyUpper, ← List.map_reverse, List.dropWhile_map]

theorem parse_set_stmt_type {stmt : Str} {c : AtCmd} (h : parse_set_stmt stmt = .ok c) :
    c.type = "SET".toList := by
  unfold parse_set_stmt at h
  split at h
  · split at h
    · cases h
    · injection h with h
      rw [← h]
  · cases h

theorem mapM_parse_set_type :
    ∀ (stmts : List Str) (cs : List AtCmd), stmts.mapM parse_set_stmt = .ok cs →
      ∀ c ∈ cs, c.type = "SET".toList
  | [], cs, h => by
    have h2 : (Except.ok ([] : List AtCmd) : Except ATErr (List AtCmd)) = .ok cs := h
    injection h2 with h2
    subst h2
    intro c hc
    cases hc
  | stmt :: stmts, cs, h => by
    rw [List.mapM_cons] at h
    rcases h1 : parse_set_stmt stmt with e | c1
    · rw [h1] at h
      cases h
    · rw [h1] at h
      rcases h2 : stmts.mapM parse_set_stmt with e | cs1
      · rw [h2] at h
        cases h
      · rw [h2] at h
        have h3 : (Except.ok (c1 :: cs1) : Except ATErr (List AtCmd)) = .ok cs := h
        injection h3 with h3
        subst h3
        intro c hc
        rcases List.mem_cons.1 hc with rfl | hc
        · exact parse_set_stmt_type h1
        · exact mapM_parse_set_type stmts cs1 h2 c hc

/-- C10 (confirmed): decode case-normalizes asymmetrically.  Every command
decoded with kind READ or TEST carries an upper-cased name (it lies in the
image of `upper`), while SET names and response labels are taken from the
original input and keep its case: `"AT+foo=1"` decodes to name `"+foo"` and
`"+foo:1"` to label `"+foo"`, but `"AT+foo=?"`/`"AT+foo?"` decode to name
`"+FOO"`. -/
theorem C10_case_asymmetry :
    (∀ (s : Str) (c : AtCmd), parse_string s = .ok (.cmd c) →
      c.type = "READ".toList ∨ c.type = "TEST".toList →
      ∃ t, c.cmd = pyUpper t) ∧
    parse_string "AT+foo=1".toList = .ok (.cmd ⟨"+foo".toList, "SET".toList, [.int 1]⟩) ∧
    parse_string "+foo:1".toList = .ok (.resp ⟨"+foo".toList, false, [.int 1]⟩) ∧
    parse_string "AT+foo=?".toList = .ok (.cmd ⟨"+FOO".toList, "TEST".toList, []⟩) ∧
    parse_string "AT+foo?".toList = .ok (.cmd ⟨"+FOO".toList, "READ".toList, []⟩) := by
  refine ⟨?_, by decide, by decide, by decide, by decide⟩
  intro s c h htype
  have himg : ∀ u : Str, ∃ t,
      pyRStrip (inClass "=?".toList) (pyLStrip (inClass "AT".toList) (pyUpper u)) =
        pyUpper t := by
    intro u
    rw [pyLStrip_pyUpper, pyRStrip_pyUpper]
    exact ⟨_, rfl⟩
  by_cases hok : ("OK".toList).isPrefixOf (pyUpper (pyStrip Char.isWhitespace s)) = true
  · exfalso
    simp only [parse_string, if_pos hok] at h
    split at h <;> simp at h
  · by_cases hpm : (decide ((pyUpper (pyStrip Char.isWhitespace s)).head? = some '+') ||
        decide ((pyUpper (pyStrip Char.isWhitespace s)).head? = some '%')) = true
    · exfalso
      simp only [parse_string, if_neg hok, if_pos hpm] at h
      rcases hsp : pySplit ':' s with _ | ⟨p1, _ | ⟨p2, _ | ⟨p3, prest⟩⟩⟩ <;>
        (rw [hsp] at h; dsimp only at h)
      · cases h
      · cases h
      · rcases hpp : _parse_params p2 with e | ps
        · rw [hpp] at h
          cases h
        · rw [hpp] at h
          injection h with h
          cases h
      · cases h
    · by_cases htest : ("=?".toList).isSuffixOf s = true
      · simp only [parse_string, if_neg hok, if_neg hpm, if_pos htest] at h
        injection h with h
        injection h with h
        rw [← h]
        exact himg s
      · by_cases hread : (['?'].isSuffixOf s) = true
        · simp only [parse_string, if_neg hok, if_neg hpm, if_neg htest, if_pos hread] at h
          injection h with h
          injection h with h
          rw [← h]
          exact himg s
        · exfalso
          simp only [parse_string, if_neg hok, if_neg hpm, if_neg htest, if_neg hread] at h
          rcases hmm : (pySplit ';' s).mapM parse_set_stmt with e | cs
          · rw [hmm] at h
            cases h
          · rw [hmm] at h
            rcases cs with _ | ⟨c1, _ | ⟨c2, cs2⟩⟩
            · have h2 : (Except.ok (.cmds []) : Except ATErr Decoded) = .ok (.cmd c) := h
              injection h2 with h2
              cases h2
            · have h2 : (Except.ok (.cmd c1) : Except ATErr Decoded) = .ok (.cmd c) := h
              injection h2 with h2
              injection h2 with h2
              have htypec : c.type = "SET".toList := by
                rw [← h2]
                exact mapM_parse_set_type _ _ hmm c1 (List.mem_singleton_self _)
              rcases htype with ht | ht <;> rw [htypec] at ht <;> cases ht
            · have h2 : (Except.ok (.cmds (c1 :: c2 :: cs2)) : Except ATErr Decoded) =
                  .ok (.cmd c) := h
              injection h2 with h2
              cases h2

/-- Witness for C10: the READ line `"at+z?"` decodes to a name in the image
of upper-casing. -/
theorem C10_case_asymmetry_witness :
    ∃ t, (⟨"+Z".toList, "READ".toList, []⟩ : AtCmd).cmd = pyUpper t :=
  C10_case_asymmetry.1 "at+z?".toList ⟨"+Z".toList, "READ".toList, []⟩
    (by decide) (Or.inl rfl)

/-! ## Round trip of the parameter codec (towards the amended C1) -/


theorem encode_params_cons (p : AtParam) {ps : List AtParam} (h : ps ≠ []) :
    _encode_params (p :: ps) = _encode_param p ++ ',' :: _encode_params ps := by
  cases ps with
  | nil => exact absurd rfl h
  | cons q qs => rfl

theorem not_mem_encode_scalar {ch : Char} (hsp : ch ≠ ' ') (hd : ch.isDigit = false)
    (hm : ch ≠ '-') (hq : ch ≠ '"')
    (htext : ∀ s : Str, wfText s = true → ch ∉ s) :
    ∀ p : AtParam, wfScalar p = true → ch ∉ _encode_param p := by
  intro p hp
  cases p with
  | none =>
    intro hmem
    rw [show _encode_param .none = [' '] from rfl, List.mem_singleton] at hmem
    exact hsp hmem
  | int i =>
    intro hmem
    cases i with
    | ofNat n =>
      obtain ⟨_, hdig, _⟩ := natToStr_spec n
      rw [show _encode_param (.int (Int.ofNat n)) = natToStr n from rfl] at hmem
      rw [hdig ch hmem] at hd
      cases hd
    | negSucc n =>
      obtain ⟨_, hdig, _⟩ := natToStr_spec (n + 1)
      rw [show _encode_param (.int (Int.negSucc n)) = '-' :: natToStr (n + 1) from rfl] at hmem
      rcases List.mem_cons.1 hmem with rfl | hmem
      · exact hm rfl
      · rw [hdig ch hmem] at hd
        cases hd
  | str s =>
    intro hmem
    rw [show _encode_param (.str s) = '"' :: (s ++ ['"']) from rfl] at hmem
    rcases List.mem_cons.1 hmem with rfl | hmem
    · exact hq rfl
    · rcases List.mem_append.1 hmem with hmem | hmem
      · exact htext s hp hmem
      · rw [List.mem_singleton] at hmem
        exact hq hmem
  | arr xs => cases hp

theorem not_mem_encode_scalars {ch : Char} (hsp : ch ≠ ' ') (hd : ch.isDigit = false)
    (hm : ch ≠ '-') (hq : ch ≠ '"') (hcm : ch ≠ ',')
    (htext : ∀ s : Str, wfText s = true → ch ∉ s) :
    ∀ ps : List AtParam, ps.all wfScalar = true → ch ∉ _encode_params ps
  | [], _ => by
    intro hmem
    cases hmem
  | [p], hps => by
    rw [show _encode_params [p] = _encode_param p from rfl]
    exact not_mem_encode_scalar hsp hd hm hq htext p (by simpa using hps)
  | p :: q :: ps, hps => by
    rw [encode_params_cons p (by simp)]
    intro hmem
    rcases List.mem_append.1 hmem with hmem | hmem
    · exact not_mem_encode_scalar hsp hd hm hq htext p (by simp at hps; tauto) hmem
    · rcases List.mem_cons.1 hmem with rfl | hmem
      · exact hcm rfl
      · refine not_mem_encode_scalars hsp hd hm hq hcm htext (q :: ps) ?_ hmem
        simp at hps ⊢
        tauto

theorem not_mem_encode_param {ch : Char} (hsp : ch ≠ ' ') (hd : ch.isDigit = false)
    (hm : ch ≠ '-') (hq : ch ≠ '"') (hcm : ch ≠ ',') (ho : ch ≠ '(') (hc : ch ≠ ')')
    (htext : ∀ s : Str, wfText s = true → ch ∉ s) :
    ∀ p : AtParam, wfParam p = true → ch ∉ _encode_param p := by
  intro p hp
  cases p with
  | arr xs =>
    rw [show _encode_param (.arr xs) = '(' :: (_encode_params xs ++ [')']) from rfl]
    intro hmem
    rcases List.mem_cons.1 hmem with rfl | hmem
    · exact ho rfl
    · rcases List.mem_append.1 hmem with hmem | hmem
      · have hxs : xs.all wfScalar = true := by
          simp only [wfParam, Bool.and_eq_true] at hp
          exact hp.1.1
        exact not_mem_encode_scalars hsp hd hm hq hcm htext xs hxs hmem
      · rw [List.mem_singleton] at hmem
        exact hc hmem
  | none => exact not_mem_encode_scalar hsp hd hm hq htext _ (by simpa [wfParam] using hp)
  | int i => exact not_mem_encode_scalar hsp hd hm hq htext _ (by simpa [wfParam] using hp)
  | str s => exact not_mem_encode_scalar hsp hd hm hq htext _ (by simpa [wfParam] using hp)

theorem not_mem_encode_params {ch : Char} (hsp : ch ≠ ' ') (hd : ch.isDigit = false)
    (hm : ch ≠ '-') (hq : ch ≠ '"') (hcm : ch ≠ ',') (ho : ch ≠ '(') (hc : ch ≠ ')')
    (htext : ∀ s : Str, wfText s = true → ch ∉ s) :
    ∀ ps : List AtParam, ps.all wfParam = true → ch ∉ _encode_params ps
  | [], _ => by
    intro hmem
    cases hmem
  | [p], hps => by
    rw [show _encode_params [p] = _encode_param p from rfl]
    exact not_mem_encode_param hsp hd hm hq hcm ho hc htext p (by simpa using hps)
  | p :: q :: ps, hps => by
    rw [encode_params_cons p (by simp)]
    intro hmem
    rcases List.mem_append.1 hmem with hmem | hmem
    · exact not_mem_encode_param hsp hd hm hq hcm ho hc htext p
        (by simp at hps; tauto) hmem
    · rcases List.mem_cons.1 hmem with rfl | hmem
      · exact hcm rfl
      · refine not_mem_encode_params hsp hd hm hq hcm ho hc htext (q :: ps) ?_ hmem
        simp at hps ⊢
        tauto

theorem wfText_not_mem {ch : Char} (h : ch = ',' ∨ ch = ';' ∨ ch = '=') :
    ∀ s : Str, wfText s = true → ch ∉ s := by
  intro s hs
  simp only [wfText, Bool.and_eq_true, decide_eq_true_eq] at hs
  rcases h with rfl | rfl | rfl
  · exact hs.1.1.1.1
  · exact hs.1.1.1.2
  · exact hs.1.1.2

theorem comma_not_mem_encode_scalar :
    ∀ p : AtParam, wfScalar p = true → ',' ∉ _encode_param p :=
  not_mem_encode_scalar (by decide) (by decide) (by decide) (by decide)
    (wfText_not_mem (Or.inl rfl))

theorem semicolon_not_mem_encode_params :
    ∀ ps : List AtParam, ps.all wfParam = true → ';' ∉ _encode_params ps :=
  not_mem_encode_params (by decide) (by decide) (by decide) (by decide) (by decide)
    (by decide) (by decide) (wfText_not_mem (Or.inr (Or.inl rfl)))

theorem eq_not_mem_encode_params :
    ∀ ps : List AtParam, ps.all wfParam = true → '=' ∉ _encode_params ps :=
  not_mem_encode_params (by decide) (by decide) (by decide) (by decide) (by decide)
    (by decide) (by decide) (wfText_not_mem (Or.inr (Or.inr rfl)))

theorem encode_scalar_head_facts {p : AtParam} (hne : p ≠ .none) (hp : wfScalar p = true) :
    ∃ c, (_encode_param p).head? = some c ∧ c.isWhitespace = false ∧ c ≠ '(' := by
  cases p with
  | none => exact absurd rfl hne
  | int i =>
    cases i with
    | ofNat n =>
      obtain ⟨hn0, hdig, _⟩ := natToStr_spec n
      rw [show _encode_param (.int (Int.ofNat n)) = natToStr n from rfl]
      rcases hh : (natToStr n).head? with _ | c
      · rw [List.head?_eq_none_iff] at hh
        exact absurd hh hn0
      · have hc : c.isDigit = true := hdig c (List.mem_of_mem_head? (by simp [hh]))
        exact ⟨c, rfl, isDigit_not_ws hc, ne_of_isDigit hc (by decide)⟩
    | negSucc n =>
      exact ⟨'-', rfl, by decide, by decide⟩
  | str s => exact ⟨'"', rfl, by decide, by decide⟩
  | arr xs => cases hp

theorem encode_scalar_last_facts {p : AtParam} (hne : p ≠ .none) (hp : wfScalar p = true) :
    ∃ c, (_encode_param p).getLast? = some c ∧ c.isWhitespace = false ∧ c ≠ ')' := by
  cases p with
  | none => exact absurd rfl hne
  | int i =>
    cases i with
    | ofNat n =>
      obtain ⟨hn0, hdig, _⟩ := natToStr_spec n
      rw [show _encode_param (.int (Int.ofNat n)) = natToStr n from rfl]
      rcases hh : (natToStr n).getLast? with _ | c
      · rw [List.getLast?_eq_none_iff] at hh
        exact absurd hh hn0
      · have hc : c.isDigit = true := hdig c (List.mem_of_mem_getLast? (by simp [hh]))
        exact ⟨c, rfl, isDigit_not_ws hc, ne_of_isDigit hc (by decide)⟩
    | negSucc n =>
      obtain ⟨hn0, hdig, _⟩ := natToStr_spec (n + 1)
      rcases List.eq_nil_or_concat (natToStr (n + 1)) with h0 | ⟨t, e, h0⟩
      · exact absurd h0 hn0
      · rw [List.concat_eq_append] at h0
        have he : e.isDigit = true := hdig e (by
          rw [h0]
          exact List.mem_append_right t (by simp))
        refine ⟨e, ?_, isDigit_not_ws he, ne_of_isDigit he (by decide)⟩
        rw [show _encode_param (.int (Int.negSucc n)) = '-' :: natToStr (n + 1) from rfl, h0,
            show '-' :: (t ++ [e]) = ('-' :: t) ++ [e] from rfl, List.getLast?_concat]
  | str s =>
    refine ⟨'"', ?_, by decide, by decide⟩
    rw [show _encode_param (.str s) = '"' :: (s ++ ['"']) from rfl,
        show '"' :: (s ++ ['"']) = ('"' :: s) ++ ['"'] from rfl, List.getLast?_concat]
  | arr xs => cases hp

theorem encode_scalar_strip {p : AtParam} (hp : wfScalar p = true) :
    pyStrip Char.isWhitespace (_encode_param p) =
      if p = .none then [] else _encode_param p := by
  by_cases hne : p = .none
  · subst hne
    decide
  · rw [if_neg hne]
    obtain ⟨ch, hh, hws, _⟩ := encode_scalar_head_facts hne hp
    obtain ⟨cl, hl, hlws, _⟩ := encode_scalar_last_facts hne hp
    apply pyStrip_eq_self
    · intro c hc
      rw [hh] at hc
      injection hc with hc
      rw [← hc]
      exact hws
    · intro c hc
      rw [hl] at hc
      injection hc with hc
      rw [← hc]
      exact hlws

theorem encode_scalar_rstrip {p : AtParam} (hp : wfScalar p = true) :
    pyRStrip Char.isWhitespace (_encode_param p) =
      if p = .none then [] else _encode_param p := by
  by_cases hne : p = .none
  · subst hne
    decide
  · rw [if_neg hne]
    obtain ⟨cl, hl, hlws, _⟩ := encode_scalar_last_facts hne hp
    apply pyRStrip_eq_self
    intro c hc
    rw [hl] at hc
    injection hc with hc
    rw [← hc]
    exact hlws

theorem parse_encode_scalar {p : AtParam} (hne : p ≠ .none) (hp : wfScalar p = true) :
    _parse_param (_encode_param p) = .ok p := by
  cases p with
  | none => exact absurd rfl hne
  | int i =>
    obtain ⟨ch, hh, _, _⟩ := encode_scalar_head_facts hne hp
    have hchar : ch.isDigit = true ∨ ch = '-' := by
      cases i with
      | ofNat n =>
        obtain ⟨_, hdig, _⟩ := natToStr_spec n
        refine Or.inl (hdig ch (List.mem_of_mem_head? ?_))
        rw [show _encode_param (.int (Int.ofNat n)) = natToStr n from rfl] at hh
        simp [hh]
      | negSucc n =>
        rw [show _encode_param (.int (Int.negSucc n)) = '-' :: natToStr (n + 1) from rfl] at hh
        injection hh with hh
        exact Or.inr hh.symm
    unfold _parse_param
    have hnn : _encode_param (.int i) ≠ [] := by
      intro hcontra
      rw [hcontra] at hh
      cases hh
    rw [if_neg hnn]
    have hqne : (_encode_param (.int i)).head? ≠ some '"' := by
      rw [hh]
      intro hcontra
      injection hcontra with hcontra
      subst hcontra
      rcases hchar with hd | hd
      · exact absurd hd (by decide)
      · cases hd
    rw [if_neg hqne, show _encode_param (.int i) = intToStr i from rfl,
        pyIntOfChars_intToStr i]
  | str s =>
    unfold _parse_param
    rw [show _encode_param (.str s) = '"' :: (s ++ ['"']) from rfl]
    rw [if_neg (by simp), if_pos (by simp)]
    have hs : wfText s = true := hp
    simp only [wfText, Bool.and_eq_true, decide_eq_true_eq] at hs
    rw [show '"' :: (s ++ ['"']) = List.replicate 1 '"' ++ s ++ List.replicate 1 '"' from by
        simp [List.replicate]]
    rw [pyStrip_quotes_general 1 1 s hs.1.2 hs.2]
  | arr xs => cases hp

theorem head_ne_open {p : AtParam} (hne : p ≠ .none) (hp : wfScalar p = true) :
    ¬((_encode_param p).head? = some '(') := by
  obtain ⟨ch, hh, _, hpar⟩ := encode_scalar_head_facts hne hp
  rw [hh]
  intro hc
  injection hc with hc
  exact hpar hc

theorem last_ne_close {p : AtParam} (hne : p ≠ .none) (hp : wfScalar p = true) :
    ¬(((_encode_param p) : Str).getLast? = some ')') := by
  obtain ⟨cl, hl, _, hrp⟩ := encode_scalar_last_facts hne hp
  rw [hl]
  intro hc
  injection hc with hc
  exact hrp hc

theorem paramStep_scalar_top {p : AtParam} (hp : wfScalar p = true) (result : List AtParam) :
    paramStep (result, Option.none) (_encode_param p) = .ok (result ++ [p], Option.none) := by
  by_cases hne : p = .none
  · subst hne
    rfl
  · have hstrip : pyStrip Char.isWhitespace (_encode_param p) = _encode_param p := by
      have h := encode_scalar_strip hp
      rwa [if_neg hne] at h
    simp only [paramStep, hstrip, if_neg (head_ne_open hne hp), paramStepRest,
               if_neg (last_ne_close hne hp)]
    rw [parse_encode_scalar hne hp]

theorem paramStep_scalar_mid {p : AtParam} (hp : wfScalar p = true)
    (result acc : List AtParam) :
    paramStep (result, Option.some acc) (_encode_param p) =
      .ok (result, Option.some (acc ++ [p])) := by
  by_cases hne : p = .none
  · subst hne
    rfl
  · have hstrip : pyStrip Char.isWhitespace (_encode_param p) = _encode_param p := by
      have h := encode_scalar_strip hp
      rwa [if_neg hne] at h
    simp only [paramStep, hstrip, if_neg (head_ne_open hne hp), paramStepRest,
               if_neg (last_ne_close hne hp)]
    rw [parse_encode_scalar hne hp]

theorem paramStep_open {x : AtParam} (hx : wfScalar x = true) (result : List AtParam) :
    paramStep (result, Option.none) ('(' :: _encode_param x) =
      .ok (result, Option.some [x]) := by
  by_cases hne : x = .none
  · subst hne
    rfl
  · have hstrip : pyStrip Char.isWhitespace ('(' :: _encode_param x) =
        '(' :: _encode_param x := by
      rw [pyStrip_cons_neg _ (by decide)]
      have h := encode_scalar_rstrip hx
      rw [if_neg hne] at h
      rw [h]
    simp only [paramStep, hstrip, List.head?_cons, reduceIte, List.tail_cons,
               paramStepRest, if_neg (last_ne_close hne hx)]
    rw [parse_encode_scalar hne hx]
    rfl

theorem paramStep_close {x : AtParam} (hx : wfScalar x = true) (result acc : List AtParam) :
    paramStep (result, Option.some acc) (_encode_param x ++ [')']) =
      .ok (result ++ [.arr (acc ++ [x])], Option.none) := by
  by_cases hne : x = .none
  · subst hne
    rfl
  · obtain ⟨ch, hh, hws, hpar⟩ := encode_scalar_head_facts hne hx
    obtain ⟨t, ht⟩ : ∃ t, _encode_param x = ch :: t := by
      cases henc : _encode_param x with
      | nil =>
        rw [henc] at hh
        cases hh
      | cons a u =>
        rw [henc] at hh
        injection hh with hh
        exact ⟨u, by rw [hh]⟩
    have hstrip : pyStrip Char.isWhitespace (_encode_param x ++ [')']) =
        _encode_param x ++ [')'] := by
      rw [ht, show (ch :: t) ++ [')'] = ch :: (t ++ [')']) from rfl,
          pyStrip_cons_neg _ hws, pyRStrip_concat_neg _ (by decide)]
    have hhead : ¬(((_encode_param x ++ [')']) : Str).head? = some '(') := by
      rw [ht, show (ch :: t) ++ [')'] = ch :: (t ++ [')']) from rfl, List.head?_cons]
      intro hc
      injection hc with hc
      exact hpar hc
    simp only [paramStep, hstrip, if_neg hhead, paramStepRest, List.getLast?_concat,
               reduceIte, List.dropLast_concat]
    rw [parse_encode_scalar hne hx]
    simp [closeArray]

theorem paramStep_singleton_arr {x : AtParam} (hxn : x ≠ .none) (hx : wfScalar x = true)
    (result : List AtParam) :
    paramStep (result, Option.none) ('(' :: (_encode_param x ++ [')'])) =
      .ok (result ++ [.arr [x]], Option.none) := by
  have hstrip : pyStrip Char.isWhitespace ('(' :: (_encode_param x ++ [')'])) =
      '(' :: (_encode_param x ++ [')']) := by
    rw [pyStrip_cons_neg _ (by decide), pyRStrip_concat_neg _ (by decide)]
  simp only [paramStep, hstrip, List.head?_cons, reduceIte, List.tail_cons,
             paramStepRest, List.getLast?_concat, List.dropLast_concat]
  rw [parse_encode_scalar hxn hx]
  simp [closeArray]

theorem foldl_arr_mid :
    ∀ (mid : List AtParam), mid.all wfScalar = true →
      ∀ {y : AtParam}, wfScalar y = true →
      ∀ (acc result : List AtParam) (rest : List Str),
      List.foldlM paramStep (result, Option.some acc)
        ((mid.map _encode_param) ++ (_encode_param y ++ [')']) :: rest) =
      List.foldlM paramStep (result ++ [.arr (acc ++ mid ++ [y])], Option.none) rest
  | [], _, y, hy, acc, result, rest => by
    simp only [List.map_nil, List.nil_append, List.foldlM_cons]
    rw [paramStep_close hy]
    simp only [List.append_nil]
    rfl
  | m :: mid, hmid, y, hy, acc, result, rest => by
    have hm : wfScalar m = true := by
      simp only [List.all_cons, Bool.and_eq_true] at hmid
      exact hmid.1
    have hmid2 : mid.all wfScalar = true := by
      simp only [List.all_cons, Bool.and_eq_true] at hmid
      exact hmid.2
    simp only [List.map_cons, List.cons_append, List.foldlM_cons]
    rw [paramStep_scalar_mid hm result acc]
    have ih := foldl_arr_mid mid hmid2 hy (acc ++ [m]) result rest
    have hassoc : acc ++ [m] ++ mid ++ [y] = acc ++ (m :: mid) ++ [y] := by simp
    rw [hassoc] at ih
    exact ih

theorem comma_not_mem_scalar_close {y : AtParam} (hy : wfScalar y = true) :
    ',' ∉ _encode_param y ++ [')'] := by
  intro hmem
  rcases List.mem_append.1 hmem with hmem | hmem
  · exact comma_not_mem_encode_scalar y hy hmem
  · rw [List.mem_singleton] at hmem
    cases hmem

theorem pySplit_arr_mid :
    ∀ (mid : List AtParam), mid.all wfScalar = true →
      ∀ {y : AtParam}, wfScalar y = true →
      pySplit ',' (_encode_params (mid ++ [y]) ++ [')']) =
        (mid.map _encode_param) ++ [_encode_param y ++ [')']]
  | [], _, y, hy => by
    rw [List.nil_append, show _encode_params [y] = _encode_param y from rfl, List.map_nil,
        List.nil_append]
    exact pySplit_not_mem (comma_not_mem_scalar_close hy)
  | m :: mid, hmid, y, hy => by
    have hm : wfScalar m = true := by
      simp only [List.all_cons, Bool.and_eq_true] at hmid
      exact hmid.1
    have hmid2 : mid.all wfScalar = true := by
      simp only [List.all_cons, Bool.and_eq_true] at hmid
      exact hmid.2
    rw [show (m :: mid) ++ [y] = m :: (mid ++ [y]) from rfl,
        encode_params_cons m (by simp),
        show (_encode_param m ++ ',' :: _encode_params (mid ++ [y])) ++ [')'] =
          _encode_param m ++ ',' :: (_encode_params (mid ++ [y]) ++ [')']) from by simp,
        pySplit_append _ (comma_not_mem_encode_scalar m hm),
        pySplit_arr_mid mid hmid2 hy, List.map_cons, List.cons_append]

theorem pySplit_arr_mid_cont :
    ∀ (mid : List AtParam), mid.all wfScalar = true →
      ∀ {y : AtParam}, wfScalar y = true → ∀ R : Str,
      pySplit ',' (_encode_params (mid ++ [y]) ++ [')'] ++ ',' :: R) =
        (mid.map _encode_param) ++ ((_encode_param y ++ [')']) :: pySplit ',' R)
  | [], _, y, hy, R => by
    rw [List.nil_append, show _encode_params [y] = _encode_param y from rfl, List.map_nil,
        List.nil_append,
        show _encode_param y ++ [')'] ++ ',' :: R = (_encode_param y ++ [')']) ++ ',' :: R
          from by simp,
        pySplit_append _ (comma_not_mem_scalar_close hy)]
  | m :: mid, hmid, y, hy, R => by
    have hm : wfScalar m = true := by
      simp only [List.all_cons, Bool.and_eq_true] at hmid
      exact hmid.1
    have hmid2 : mid.all wfScalar = true := by
      simp only [List.all_cons, Bool.and_eq_true] at hmid
      exact hmid.2
    rw [show (m :: mid) ++ [y] = m :: (mid ++ [y]) from rfl,
        encode_params_cons m (by simp),
        show (_encode_param m ++ ',' :: _encode_params (mid ++ [y])) ++ [')'] ++ ',' :: R =
          _encode_param m ++ ',' :: (_encode_params (mid ++ [y]) ++ [')'] ++ ',' :: R)
          from by simp,
        pySplit_append _ (comma_not_mem_encode_scalar m hm),
        pySplit_arr_mid_cont mid hmid2 hy R, List.map_cons, List.cons_append]

theorem foldl_group_cont_scalar {p : AtParam} (hs : wfScalar p = true)
    (result : List AtParam) (R : Str) :
    List.foldlM paramStep (result, Option.none) (pySplit ',' (_encode_param p ++ ',' :: R)) =
    List.foldlM paramStep (result ++ [p], Option.none) (pySplit ',' R) := by
  rw [pySplit_append _ (comma_not_mem_encode_scalar p hs), List.foldlM_cons,
      paramStep_scalar_top hs result]
  rfl

theorem comma_not_mem_arr_head {x : AtParam} (hx : wfScalar x = true) :
    ',' ∉ '(' :: _encode_param x := by
  intro hmem
  rcases List.mem_cons.1 hmem with h | h
  · cases h
  · exact comma_not_mem_encode_scalar x hx h

theorem foldl_group_cont {p : AtParam} (hp : wfParam p = true)
    (result : List AtParam) (R : Str) :
    List.foldlM paramStep (result, Option.none) (pySplit ',' (_encode_param p ++ ',' :: R)) =
    List.foldlM paramStep (result ++ [p], Option.none) (pySplit ',' R) := by
  cases p with
  | none => exact foldl_group_cont_scalar (by simpa [wfParam] using hp) result R
  | int i => exact foldl_group_cont_scalar (by simpa [wfParam] using hp) result R
  | str s => exact foldl_group_cont_scalar (by simpa [wfParam] using hp) result R
  | arr xs =>
    have hall : xs.all wfScalar = true := by
      simp only [wfParam, Bool.and_eq_true] at hp
      exact hp.1.1
    have hne : xs ≠ [] := by
      simp only [wfParam, Bool.and_eq_true] at hp
      simpa using hp.1.2
    have hnn : xs ≠ [.none] := by
      simp only [wfParam, Bool.and_eq_true, decide_eq_true_eq] at hp
      exact hp.2
    cases xs with
    | nil => exact absurd rfl hne
    | cons x xs2 =>
      have hx : wfScalar x = true := by
        simp only [List.all_cons, Bool.and_eq_true] at hall
        exact hall.1
      have hxs2 : xs2.all wfScalar = true := by
        simp only [List.all_cons, Bool.and_eq_true] at hall
        exact hall.2
      cases xs2 with
      | nil =>
        have hxn : x ≠ .none := fun h => hnn (by rw [h])
        have hnotin : ',' ∉ '(' :: (_encode_param x ++ [')']) := by
          intro hmem
          rcases List.mem_cons.1 hmem with h | h
          · cases h
          · exact comma_not_mem_scalar_close hx h
        rw [show _encode_param (.arr [x]) = '(' :: (_encode_param x ++ [')']) from rfl,
            show ('(' :: (_encode_param x ++ [')'])) ++ ',' :: R =
              ('(' :: (_encode_param x ++ [')'])) ++ ',' :: R from rfl,
            pySplit_append _ hnotin, List.foldlM_cons, paramStep_singleton_arr hxn hx]
        rfl
      | cons x2 xs3 =>
        rcases List.eq_nil_or_concat (x2 :: xs3) with h0 | ⟨mid, y, h0⟩
        · cases h0
        · rw [List.concat_eq_append] at h0
          rw [h0] at hxs2 ⊢
          rw [List.all_append] at hxs2
          simp only [Bool.and_eq_true] at hxs2
          have hmidall : mid.all wfScalar = true := hxs2.1
          have hy : wfScalar y = true := by simpa using hxs2.2
          rw [show _encode_param (.arr (x :: (mid ++ [y]))) =
              '(' :: (_encode_params (x :: (mid ++ [y])) ++ [')']) from rfl,
              encode_params_cons x (by simp),
              show '(' :: ((_encode_param x ++ ',' :: _encode_params (mid ++ [y])) ++ [')'])
                  ++ ',' :: R =
                ('(' :: _encode_param x) ++
                  ',' :: (_encode_params (mid ++ [y]) ++ [')'] ++ ',' :: R) from by simp,
              pySplit_append _ (comma_not_mem_arr_head hx),
              pySplit_arr_mid_cont mid hmidall hy R,
              List.foldlM_cons, paramStep_open hx]
          have hfold := foldl_arr_mid mid hmidall hy [x] result (pySplit ',' R)
          have hassoc2 : ([x] ++ mid ++ [y] : List AtParam) = x :: (mid ++ [y]) := by simp
          rw [hassoc2] at hfold
          exact hfold

theorem foldl_group_last {p : AtParam} (hp : wfParam p = true) (result : List AtParam) :
    List.foldlM paramStep (result, Option.none) (pySplit ',' (_encode_param p)) =
      .ok (result ++ [p], Option.none) := by
  cases p with
  | none =>
    rw [pySplit_not_mem (comma_not_mem_encode_scalar _ (by simpa [wfParam] using hp)),
        List.foldlM_cons, paramStep_scalar_top (by simpa [wfParam] using hp) result]
    rfl
  | int i =>
    rw [pySplit_not_mem (comma_not_mem_encode_scalar _ (by simpa [wfParam] using hp)),
        List.foldlM_cons, paramStep_scalar_top (by simpa [wfParam] using hp) result]
    rfl
  | str s =>
    rw [pySplit_not_mem (comma_not_mem_encode_scalar _ (by simpa [wfParam] using hp)),
        List.foldlM_cons, paramStep_scalar_top (by simpa [wfParam] using hp) result]
    rfl
  | arr xs =>
    have hall : xs.all wfScalar = true := by
      simp only [wfParam, Bool.and_eq_true] at hp
      exact hp.1.1
    have hne : xs ≠ [] := by
      simp only [wfParam, Bool.and_eq_true] at hp
      simpa using hp.1.2
    have hnn : xs ≠ [.none] := by
      simp only [wfParam, Bool.and_eq_true, decide_eq_true_eq] at hp
      exact hp.2
    cases xs with
    | nil => exact absurd rfl hne
    | cons x xs2 =>
      have hx : wfScalar x = true := by
        simp only [List.all_cons, Bool.and_eq_true] at hall
        exact hall.1
      have hxs2 : xs2.all wfScalar = true := by
        simp only [List.all_cons, Bool.and_eq_true] at hall
        exact hall.2
      cases xs2 with
      | nil =>
        have hxn : x ≠ .none := fun h => hnn (by rw [h])
        have hnotin : ',' ∉ '(' :: (_encode_param x ++ [')']) := by
          intro hmem
          rcases List.mem_cons.1 hmem with h | h
          · cases h
          · exact comma_not_mem_scalar_close hx h
        rw [show _encode_param (.arr [x]) = '(' :: (_encode_param x ++ [')']) from rfl,
            pySplit_not_mem hnotin, List.foldlM_cons, paramStep_singleton_arr hxn hx]
        rfl
      | cons x2 xs3 =>
        rcases List.eq_nil_or_concat (x2 :: xs3) with h0 | ⟨mid, y, h0⟩
        · cases h0
        · rw [List.concat_eq_append] at h0
          rw [h0] at hxs2 ⊢
          rw [List.all_append] at hxs2
          simp only [Bool.and_eq_true] at hxs2
          have hmidall : mid.all wfScalar = true := hxs2.1
          have hy : wfScalar y = true := by simpa using hxs2.2
          rw [show _encode_param (.arr (x :: (mid ++ [y]))) =
              '(' :: (_encode_params (x :: (mid ++ [y])) ++ [')']) from rfl,
              encode_params_cons x (by simp),
              show '(' :: ((_encode_param x ++ ',' :: _encode_params (mid ++ [y])) ++ [')']) =
                ('(' :: _encode_param x) ++
                  ',' :: (_encode_params (mid ++ [y]) ++ [')']) from by simp,
              pySplit_append _ (comma_not_mem_arr_head hx),
              pySplit_arr_mid mid hmidall hy,
              List.foldlM_cons, paramStep_open hx]
          have hfold := foldl_arr_mid mid hmidall hy [x] result []
          have hassoc2 : ([x] ++ mid ++ [y] : List AtParam) = x :: (mid ++ [y]) := by simp
          rw [hassoc2] at hfold
          exact hfold

theorem foldl_params :
    ∀ (ps : List AtParam), ps.all wfParam = true → ps ≠ [] → ∀ result : List AtParam,
      List.foldlM paramStep (result, Option.none) (pySplit ',' (_encode_params ps)) =
        .ok (result ++ ps, Option.none)
  | [], _, hne, _ => absurd rfl hne
  | [p], hp, _, result => by
    rw [show _encode_params [p] = _encode_param p from rfl]
    exact foldl_group_last (by simpa using hp) result
  | p :: q :: ps, hps, _, result => by
    have hp : wfParam p = true := by
      simp only [List.all_cons, Bool.and_eq_true] at hps
      exact hps.1
    have hrest : (q :: ps).all wfParam = true := by
      simp only [List.all_cons, Bool.and_eq_true] at hps ⊢
      exact ⟨hps.2.1, hps.2.2⟩
    rw [encode_params_cons p (by simp), foldl_group_cont hp result _,
        foldl_params (q :: ps) hrest (by simp) (result ++ [p])]
    simp

/-- Round trip of the parameter codec: for any non-empty well-formed
parameter list, re-parsing the encoding yields the original list. -/
theorem _parse_params_roundtrip {ps : List AtParam} (hps : ps.all wfParam = true)
    (hne : ps ≠ []) : _parse_params (_encode_params ps) = .ok ps := by
  unfold _parse_params
  rw [foldl_params ps hps hne []]
  rfl

/-! ## Line-level classification facts -/

theorem temp_strip_A (t : Str) :
    pyUpper (pyStrip Char.isWhitespace ('A' :: t)) =
      'A' :: pyUpper (pyRStrip Char.isWhitespace t) := by
  rw [pyStrip_cons_neg _ (by decide)]
  rfl

theorem ok_prefix_A (t : Str) :
    ("OK".toList).isPrefixOf (pyUpper (pyStrip Char.isWhitespace ('A' :: t))) = false := by
  rw [temp_strip_A]
  rfl

theorem pm_cond_A (t : Str) :
    ¬((pyUpper (pyStrip Char.isWhitespace ('A' :: t))).head? = some '+' ∨
      (pyUpper (pyStrip Char.isWhitespace ('A' :: t))).head? = some '%') := by
  rw [temp_strip_A]
  intro h
  rcases h with h | h <;>
    (rw [List.head?_cons] at h; injection h with h; exact absurd h (by decide))

theorem suffix_q_true (pre : Str) : (['?'].isSuffixOf (pre ++ ['?'])) = true := by
  rw [show (['?'] : Str).isSuffixOf (pre ++ ['?']) =
      (['?'] : Str).reverse.isPrefixOf (pre ++ ['?']).reverse from rfl, List.reverse_append]
  simp [List.isPrefixOf_cons₂]

theorem suffix_eqq_true (pre : Str) :
    (("=?".toList).isSuffixOf (pre ++ ['=', '?'])) = true := by
  rw [show ("=?".toList).isSuffixOf (pre ++ ['=', '?']) =
      ("=?".toList).reverse.isPrefixOf (pre ++ ['=', '?']).reverse from rfl,
      List.reverse_append]
  simp [List.isPrefixOf_cons₂]

theorem suffix_q_false {pre : Str} {c0 : Char} (h : c0 ≠ '?') :
    (['?'].isSuffixOf (pre ++ [c0])) = false := by
  rw [show (['?'] : Str).isSuffixOf (pre ++ [c0]) =
      (['?'] : Str).reverse.isPrefixOf (pre ++ [c0]).reverse from rfl, List.reverse_append]
  show (('?' == c0) && _) = false
  have : ('?' == c0) = false := by
    rw [beq_eq_false_iff_ne]
    exact fun hc => h hc.symm
  rw [this]
  rfl

theorem suffix_eqq_false {pre : Str} {c0 : Char} (h : c0 ≠ '?') :
    (("=?".toList).isSuffixOf (pre ++ [c0])) = false := by
  rw [show ("=?".toList).isSuffixOf (pre ++ [c0]) =
      ("=?".toList).reverse.isPrefixOf (pre ++ [c0]).reverse from rfl, List.reverse_append]
  show (('?' == c0) && _) = false
  have : ('?' == c0) = false := by
    rw [beq_eq_false_iff_ne]
    exact fun hc => h hc.symm
  rw [this]
  rfl

theorem suffix_eqq_false_of_last {pre : Str} (h : pre.getLast? ≠ some '=') :
    (("=?".toList).isSuffixOf (pre ++ ['?'])) = false := by
  rw [show ("=?".toList).isSuffixOf (pre ++ ['?']) =
      ("=?".toList).reverse.isPrefixOf (pre ++ ['?']).reverse from rfl, List.reverse_append]
  show (('?' == '?') && (List.isPrefixOf ['='] pre.reverse)) = false
  rw [show ('?' == '?') = true from rfl, Bool.true_and]
  cases hr : pre.reverse with
  | nil => rfl
  | cons d rest =>
    show (('=' == d) && _) = false
    have hd : pre.getLast? = some d := by
      rw [← List.head?_reverse, hr, List.head?_cons]
    have : ('=' == d) = false := by
      rw [beq_eq_false_iff_ne]
      intro hc
      exact h (by rw [hd, ← hc])
    rw [this]
    rfl

theorem parse_string_test_branch (s : Str)
    (h1 : ("OK".toList).isPrefixOf (pyUpper (pyStrip Char.isWhitespace s)) = false)
    (h2 : ¬((pyUpper (pyStrip Char.isWhitespace s)).head? = some '+' ∨
        (pyUpper (pyStrip Char.isWhitespace s)).head? = some '%'))
    (h3 : ("=?".toList).isSuffixOf s = true) :
    parse_string s = .ok (.cmd ⟨pyRStrip (inClass "=?".toList)
      (pyLStrip (inClass "AT".toList) (pyUpper s)), "TEST".toList, []⟩) := by
  have h1b : ¬(("OK".toList).isPrefixOf (pyUpper (pyStrip Char.isWhitespace s)) = true) := by
    intro hc
    rw [h1] at hc
    exact absurd hc (by decide)
  simp only [parse_string]
  rw [if_neg h1b, if_neg (by simpa using h2), if_pos h3]

theorem parse_string_read_branch (s : Str)
    (h1 : ("OK".toList).isPrefixOf (pyUpper (pyStrip Char.isWhitespace s)) = false)
    (h2 : ¬((pyUpper (pyStrip Char.isWhitespace s)).head? = some '+' ∨
        (pyUpper (pyStrip Char.isWhitespace s)).head? = some '%'))
    (h3 : ("=?".toList).isSuffixOf s = false) (h4 : (['?'].isSuffixOf s) = true) :
    parse_string s = .ok (.cmd ⟨pyRStrip (inClass "=?".toList)
      (pyLStrip (inClass "AT".toList) (pyUpper s)), "READ".toList, []⟩) := by
  have h1b : ¬(("OK".toList).isPrefixOf (pyUpper (pyStrip Char.isWhitespace s)) = true) := by
    intro hc
    rw [h1] at hc
    exact absurd hc (by decide)
  have h3b : ¬((("=?".toList).isSuffixOf s) = true) := by
    intro hc
    rw [h3] at hc
    exact absurd hc (by decide)
  simp only [parse_string]
  rw [if_neg h1b, if_neg (by simpa using h2), if_neg h3b, if_pos h4]

theorem inClass_AT_false {c : Char} (hA : c ≠ 'A') (hT : c ≠ 'T') :
    inClass "AT".toList c = false := by
  simp only [inClass, List.contains, List.elem]
  rw [show (c == 'A') = false from by rw [beq_eq_false_iff_ne]; exact hA]
  rw [show (c == 'T') = false from by rw [beq_eq_false_iff_ne]; exact hT]

theorem inClass_EQQ_false {c : Char} (hE : c ≠ '=') (hQ : c ≠ '?') :
    inClass "=?".toList c = false := by
  simp only [inClass, List.contains, List.elem]
  rw [show (c == '=') = false from by rw [beq_eq_false_iff_ne]; exact hE]
  rw [show (c == '?') = false from by rw [beq_eq_false_iff_ne]; exact hQ]

theorem lstrip_AT (name : Str) (hA : name.head? ≠ some 'A') (hT : name.head? ≠ some 'T') :
    pyLStrip (inClass "AT".toList) ("AT".toList ++ name) = name := by
  show List.dropWhile _ ('A' :: 'T' :: name) = name
  rw [List.dropWhile_cons, show inClass "AT".toList 'A' = true from rfl]
  simp only [if_true]
  rw [List.dropWhile_cons, show inClass "AT".toList 'T' = true from rfl]
  simp only [if_true]
  cases name with
  | nil => rfl
  | cons c t =>
    have hc : inClass "AT".toList c = false := by
      refine inClass_AT_false (fun h => hA ?_) (fun h => hT ?_) <;> rw [List.head?_cons, h]
    rw [List.dropWhile_cons, hc]
    simp

theorem rstrip_EQQ_pair (U : Str) (hE : U.getLast? ≠ some '=') (hQ : U.getLast? ≠ some '?') :
    pyRStrip (inClass "=?".toList) (U ++ ['=', '?']) = U := by
  show ((U ++ ['=', '?']).reverse.dropWhile _).reverse = U
  rw [List.reverse_append, show (['=', '?'] : Str).reverse = ['?', '='] from rfl]
  rw [show (['?', '='] ++ U.reverse : Str) = '?' :: '=' :: U.reverse from rfl]
  rw [List.dropWhile_cons, show inClass "=?".toList '?' = true from rfl]
  simp only [if_true]
  rw [List.dropWhile_cons, show inClass "=?".toList '=' = true from rfl]
  simp only [if_true]
  cases hr : U.reverse with
  | nil =>
    simp only [List.dropWhile_nil, List.reverse_nil]
    rw [← List.reverse_reverse U, hr]
    rfl
  | cons d rest =>
    have hd : U.getLast? = some d := by
      rw [← List.head?_reverse, hr, List.head?_cons]
    have hdc : inClass "=?".toList d = false := by
      refine inClass_EQQ_false (fun h => hE ?_) (fun h => hQ ?_) <;> rw [hd, h]
    rw [List.dropWhile_cons, hdc]
    simp only [Bool.false_eq_true, if_false]
    rw [← hr, List.reverse_reverse]

theorem rstrip_EQQ_q (U : Str) (hE : U.getLast? ≠ some '=') (hQ : U.getLast? ≠ some '?') :
    pyRStrip (inClass "=?".toList) (U ++ ['?']) = U := by
  show ((U ++ ['?']).reverse.dropWhile _).reverse = U
  rw [List.reverse_append, show ((['?'] : Str)).reverse = ['?'] from rfl,
      show (['?'] ++ U.reverse : Str) = '?' :: U.reverse from rfl,
      List.dropWhile_cons, show inClass "=?".toList '?' = true from rfl]
  simp only [if_true]
  cases hr : U.reverse with
  | nil =>
    simp only [List.dropWhile_nil, List.reverse_nil]
    rw [← List.reverse_reverse U, hr]
    rfl
  | cons d rest =>
    have hd : U.getLast? = some d := by
      rw [← List.head?_reverse, hr, List.head?_cons]
    have hdc : inClass "=?".toList d = false := by
      refine inClass_EQQ_false (fun h => hE ?_) (fun h => hQ ?_) <;> rw [hd, h]
    rw [List.dropWhile_cons, hdc]
    simp only [Bool.false_eq_true, if_false]
    rw [← hr, List.reverse_reverse]

/-! ## Line-level round trip for well-formed commands -/

theorem exists_concat_of_getLast? {l : Str} {c : Char} (h : l.getLast? = some c) :
    ∃ t, l = t ++ [c] := by
  rcases List.eq_nil_or_concat l with h0 | ⟨t, e, h0⟩
  · subst h0
    cases h
  · rw [List.concat_eq_append] at h0
    subst h0
    rw [List.getLast?_concat] at h
    injection h with h
    subst h
    exact ⟨t, rfl⟩

theorem getLast_cons2 {a : Str} (x y : Char) (h : a ≠ []) :
    (x :: y :: a).getLast? = a.getLast? := by
  rcases List.eq_nil_or_concat a with h0 | ⟨t, e, h0⟩
  · exact absurd h0 h
  · rw [List.concat_eq_append] at h0
    subst h0
    rw [show x :: y :: (t ++ [e]) = (x :: y :: t) ++ [e] from rfl, List.getLast?_concat,
        List.getLast?_concat]

theorem head_append_ne {a b : Str} {c : Char} (hne : a ≠ []) (h : a.head? ≠ some c) :
    (a ++ b).head? ≠ some c := by
  cases a with
  | nil => exact absurd rfl hne
  | cons d t => exact h

theorem pyUpper_ne_nil {s : Str} (h : s ≠ []) : pyUpper s ≠ [] := by
  cases s with
  | nil => exact absurd rfl h
  | cons c t => simp [pyUpper]

theorem head_upper_ne {s : Str} {c : Char} (hup : Char.toUpper c = c)
    (h : (pyUpper s).head? ≠ some c) : s.head? ≠ some c := by
  cases s with
  | nil => intro hc; cases hc
  | cons d t =>
    intro hc
    injection hc with hc
    subst hc
    exact h (by rw [show (pyUpper (d :: t)).head? = some (Char.toUpper d) from rfl, hup])

theorem getLast_upper_ne {s : Str} {c : Char} (hup : Char.toUpper c = c)
    (h : (pyUpper s).getLast? ≠ some c) : s.getLast? ≠ some c := by
  intro hc
  obtain ⟨t, ht⟩ := exists_concat_of_getLast? hc
  apply h
  rw [ht]
  simp only [pyUpper, List.map_append, List.map_cons, List.map_nil]
  rw [hup, List.getLast?_concat]

theorem encode_param_last_safe {p : AtParam} (hp : wfParam p = true) :
    ∃ c, (_encode_param p).getLast? = some c ∧ c ≠ '?' ∧ c ≠ '=' := by
  cases p with
  | none => exact ⟨' ', rfl, by decide, by decide⟩
  | arr xs =>
    refine ⟨')', ?_, by decide, by decide⟩
    rw [show _encode_param (.arr xs) = ('(' :: _encode_params xs) ++ [')'] from rfl,
        List.getLast?_concat]
  | str s =>
    refine ⟨'"', ?_, by decide, by decide⟩
    rw [show _encode_param (.str s) = ('"' :: s) ++ ['"'] from rfl, List.getLast?_concat]
  | int i =>
    cases i with
    | ofNat n =>
      obtain ⟨hn0, hdig, _⟩ := natToStr_spec n
      rw [show _encode_param (.int (Int.ofNat n)) = natToStr n from rfl]
      rcases hh : (natToStr n).getLast? with _ | c
      · rw [List.getLast?_eq_none_iff] at hh
        exact absurd hh hn0
      · have hc : c.isDigit = true := hdig c (List.mem_of_mem_getLast? (by simp [hh]))
        exact ⟨c, rfl, ne_of_isDigit hc (by decide), ne_of_isDigit hc (by decide)⟩
    | negSucc n =>
      obtain ⟨hn0, hdig, _⟩ := natToStr_spec (n + 1)
      rcases List.eq_nil_or_concat (natToStr (n + 1)) with h0 | ⟨t, e, h0⟩
      · exact absurd h0 hn0
      · rw [List.concat_eq_append] at h0
        have he : e.isDigit = true := hdig e (by
          rw [h0]
          exact List.mem_append_right t (by simp))
        refine ⟨e, ?_, ne_of_isDigit he (by decide), ne_of_isDigit he (by decide)⟩
        rw [show _encode_param (.int (Int.negSucc n)) = '-' :: natToStr (n + 1) from rfl, h0,
            show '-' :: (t ++ [e]) = ('-' :: t) ++ [e] from rfl, List.getLast?_concat]

theorem encode_params_last_safe : ∀ {ps : List AtParam}, ps.all wfParam = true → ps ≠ [] →
    ∃ c, (_encode_params ps).getLast? = some c ∧ c ≠ '?' ∧ c ≠ '='
  | [], _, hne => absurd rfl hne
  | [p], hps, _ => by
    rw [show _encode_params [p] = _encode_param p from rfl]
    exact encode_param_last_safe (by
      simp only [List.all_cons, List.all_nil, Bool.and_true] at hps
      exact hps)
  | p :: q :: ps, hps, _ => by
    have hq : (q :: ps).all wfParam = true := by
      simp only [List.all_cons, Bool.and_eq_true] at hps ⊢
      exact ⟨hps.2.1, hps.2.2⟩
    obtain ⟨c, hl, h1, h2⟩ := encode_params_last_safe hq (by simp)
    obtain ⟨t, ht⟩ := exists_concat_of_getLast? hl
    refine ⟨c, ?_, h1, h2⟩
    rw [encode_params_cons p (by simp), ht,
        show _encode_param p ++ ',' :: (t ++ [c]) = (_encode_param p ++ ',' :: t) ++ [c] from
          by simp, List.getLast?_concat]

theorem roundtrip_set (c : AtCmd) (hty : c.type = "SET".toList)
    (hA : c.cmd.head? ≠ some 'A') (hT : c.cmd.head? ≠ some 'T')
    (hsemi : ';' ∉ c.cmd) (heq : '=' ∉ c.cmd)
    (hps : c.params.all wfParam = true) (hpne : c.params ≠ []) :
    encode_command [c] = .ok (('A' :: 'T' :: c.cmd) ++ '=' :: _encode_params c.params) ∧
    parse_string (('A' :: 'T' :: c.cmd) ++ '=' :: _encode_params c.params) =
      .ok (.cmd ⟨c.cmd, "SET".toList, c.params⟩) := by
  constructor
  · simp only [encode_command, encode_command_from]
    rw [if_pos hty]
    rfl
  · obtain ⟨cl, hl, hq, he⟩ := encode_params_last_safe hps hpne
    obtain ⟨t0, ht0⟩ := exists_concat_of_getLast? hl
    have h1 : ("OK".toList).isPrefixOf (pyUpper (pyStrip Char.isWhitespace
        (('A' :: 'T' :: c.cmd) ++ '=' :: _encode_params c.params))) = false :=
      ok_prefix_A (('T' :: c.cmd) ++ '=' :: _encode_params c.params)
    have h2 := pm_cond_A (('T' :: c.cmd) ++ '=' :: _encode_params c.params)
    have h4 : (['?'].isSuffixOf (('A' :: 'T' :: c.cmd) ++ '=' :: _encode_params c.params))
        = false := by
      rw [ht0, show ('A' :: 'T' :: c.cmd) ++ '=' :: (t0 ++ [cl])
          = (('A' :: 'T' :: c.cmd) ++ '=' :: t0) ++ [cl] from by simp]
      exact suffix_q_false hq
    have h3 : (("=?".toList).isSuffixOf (('A' :: 'T' :: c.cmd) ++ '=' :: _encode_params c.params))
        = false := by
      rw [ht0, show ('A' :: 'T' :: c.cmd) ++ '=' :: (t0 ++ [cl])
          = (('A' :: 'T' :: c.cmd) ++ '=' :: t0) ++ [cl] from by simp]
      exact suffix_eqq_false hq
    rw [parse_string_set_branch _ h1 h2 h3 h4]
    have hsemiS : ';' ∉ (('A' :: 'T' :: c.cmd) ++ '=' :: _encode_params c.params) := by
      intro hm
      rcases List.mem_append.1 hm with hm | hm
      · simp only [List.mem_cons] at hm
        rcases hm with h | h | h
        · exact absurd h (by decide)
        · exact absurd h (by decide)
        · exact hsemi h
      · simp only [List.mem_cons] at hm
        rcases hm with h | h
        · exact absurd h (by decide)
        · exact semicolon_not_mem_encode_params c.params hps h
    rw [pySplit_not_mem hsemiS]
    have ha : '=' ∉ ('A' :: 'T' :: c.cmd) := by
      intro hm
      simp only [List.mem_cons] at hm
      rcases hm with h | h | h
      · exact absurd h (by decide)
      · exact absurd h (by decide)
      · exact heq h
    have hls : pyLStrip (inClass "AT".toList) ('A' :: 'T' :: c.cmd) = c.cmd :=
      lstrip_AT c.cmd hA hT
    have hpss : parse_set_stmt (('A' :: 'T' :: c.cmd) ++ '=' :: _encode_params c.params)
        = .ok ⟨c.cmd, "SET".toList, c.params⟩ := by
      unfold parse_set_stmt
      rw [pySplit_pair ha (eq_not_mem_encode_params c.params hps)]
      dsimp only
      rw [_parse_params_roundtrip hps hpne]
      dsimp only
      rw [hls]
    have hmm : List.mapM parse_set_stmt
        [('A' :: 'T' :: c.cmd) ++ '=' :: _encode_params c.params]
        = .ok [(⟨c.cmd, "SET".toList, c.params⟩ : AtCmd)] := by
      rw [List.mapM_cons, hpss]
      rfl
    rw [hmm]

theorem roundtrip_read (c : AtCmd) (hty : c.type = "READ".toList)
    (hcne : c.cmd ≠ [])
    (hA : (pyUpper c.cmd).head? ≠ some 'A') (hT : (pyUpper c.cmd).head? ≠ some 'T')
    (hE : (pyUpper c.cmd).getLast? ≠ some '=') (hQ : (pyUpper c.cmd).getLast? ≠ some '?') :
    encode_command [c] = .ok (('A' :: 'T' :: c.cmd) ++ ['?']) ∧
    parse_string (('A' :: 'T' :: c.cmd) ++ ['?']) =
      .ok (.cmd ⟨pyUpper c.cmd, "READ".toList, []⟩) := by
  constructor
  · simp only [encode_command, encode_command_from]
    rw [if_neg (by rw [hty]; decide), if_pos hty]
    rfl
  · have h1 : ("OK".toList).isPrefixOf (pyUpper (pyStrip Char.isWhitespace
        (('A' :: 'T' :: c.cmd) ++ ['?']))) = false :=
      ok_prefix_A (('T' :: c.cmd) ++ ['?'])
    have h2 := pm_cond_A (('T' :: c.cmd) ++ ['?'])
    have hE' : c.cmd.getLast? ≠ some '=' := getLast_upper_ne (by decide) hE
    have hpre : ('A' :: 'T' :: c.cmd).getLast? = c.cmd.getLast? := getLast_cons2 'A' 'T' hcne
    have h3 : (("=?".toList).isSuffixOf (('A' :: 'T' :: c.cmd) ++ ['?'])) = false :=
      suffix_eqq_false_of_last (by rw [hpre]; exact hE')
    have h4 : (['?'].isSuffixOf (('A' :: 'T' :: c.cmd) ++ ['?'])) = true := suffix_q_true _
    rw [parse_string_read_branch _ h1 h2 h3 h4]
    have hup : pyUpper (('A' :: 'T' :: c.cmd) ++ ['?'])
        = 'A' :: 'T' :: (pyUpper c.cmd ++ ['?']) := by
      simp only [pyUpper, List.map_append, List.map_cons, List.map_nil, List.cons_append]
      rw [show Char.toUpper 'A' = 'A' from by decide, show Char.toUpper 'T' = 'T' from by decide,
          show Char.toUpper '?' = '?' from by decide]
    have hls : pyLStrip (inClass "AT".toList) ('A' :: 'T' :: (pyUpper c.cmd ++ ['?']))
        = pyUpper c.cmd ++ ['?'] :=
      lstrip_AT (pyUpper c.cmd ++ ['?'])
        (head_append_ne (pyUpper_ne_nil hcne) hA) (head_append_ne (pyUpper_ne_nil hcne) hT)
    have hrs : pyRStrip (inClass "=?".toList) (pyUpper c.cmd ++ ['?']) = pyUpper c.cmd :=
      rstrip_EQQ_q (pyUpper c.cmd) hE hQ
    rw [hup, hls, hrs]

theorem roundtrip_test (c : AtCmd) (hty : c.type = "TEST".toList)
    (hcne : c.cmd ≠ [])
    (hA : (pyUpper c.cmd).head? ≠ some 'A') (hT : (pyUpper c.cmd).head? ≠ some 'T')
    (hE : (pyUpper c.cmd).getLast? ≠ some '=') (hQ : (pyUpper c.cmd).getLast? ≠ some '?') :
    encode_command [c] = .ok (('A' :: 'T' :: c.cmd) ++ ['=', '?']) ∧
    parse_string (('A' :: 'T' :: c.cmd) ++ ['=', '?']) =
      .ok (.cmd ⟨pyUpper c.cmd, "TEST".toList, []⟩) := by
  constructor
  · simp only [encode_command, encode_command_from]
    rw [if_neg (by rw [hty]; decide), if_neg (by rw [hty]; decide), if_pos hty]
    rfl
  · have h1 : ("OK".toList).isPrefixOf (pyUpper (pyStrip Char.isWhitespace
        (('A' :: 'T' :: c.cmd) ++ ['=', '?']))) = false :=
      ok_prefix_A (('T' :: c.cmd) ++ ['=', '?'])
    have h2 := pm_cond_A (('T' :: c.cmd) ++ ['=', '?'])
    have h3 : (("=?".toList).isSuffixOf (('A' :: 'T' :: c.cmd) ++ ['=', '?'])) = true :=
      suffix_eqq_true _
    rw [parse_string_test_branch _ h1 h2 h3]
    have hup : pyUpper (('A' :: 'T' :: c.cmd) ++ ['=', '?'])
        = 'A' :: 'T' :: (pyUpper c.cmd ++ ['=', '?']) := by
      simp only [pyUpper, List.map_append, List.map_cons, List.map_nil, List.cons_append]
      rw [show Char.toUpper 'A' = 'A' from by decide, show Char.toUpper 'T' = 'T' from by decide,
          show Char.toUpper '=' = '=' from by decide, show Char.toUpper '?' = '?' from by decide]
    have hls : pyLStrip (inClass "AT".toList) ('A' :: 'T' :: (pyUpper c.cmd ++ ['=', '?']))
        = pyUpper c.cmd ++ ['=', '?'] :=
      lstrip_AT (pyUpper c.cmd ++ ['=', '?'])
        (head_append_ne (pyUpper_ne_nil hcne) hA) (head_append_ne (pyUpper_ne_nil hcne) hT)
    have hrs : pyRStrip (inClass "=?".toList) (pyUpper c.cmd ++ ['=', '?']) = pyUpper c.cmd :=
      rstrip_EQQ_pair (pyUpper c.cmd) hE hQ
    rw [hup, hls, hrs]


/-- C1 (corrected): the decode∘encode identity up to name case does not hold
for every single command without nested arrays (see `C1_counterexample`:
empty SET parameter lists do not survive).  It does hold for every
well-formed command (`wfCmd`): encoding succeeds, the wire string decodes to
a single command, and that command equals the original up to upper-casing
the stored name. -/
theorem C1_roundtrip_wf (c : AtCmd) (hwf : wfCmd c = true) :
    ∃ s : Str, encode_command [c] = .ok s ∧
      ∃ c2 : AtCmd, parse_string s = .ok (.cmd c2) ∧ nameUpper c2 = nameUpper c := by
  unfold wfCmd at hwf
  simp only [Bool.and_eq_true, decide_eq_true_eq] at hwf
  obtain ⟨⟨⟨⟨⟨hcne, hA⟩, hT⟩, hE⟩, hQ⟩, hrest⟩ := hwf
  split at hrest
  · next hty =>
    simp only [Bool.and_eq_true, decide_eq_true_eq] at hrest
    obtain ⟨⟨⟨hsemi, heq⟩, hall⟩, hpne⟩ := hrest
    obtain ⟨henc, hdec⟩ := roundtrip_set c hty (head_upper_ne (by decide) hA)
      (head_upper_ne (by decide) hT) hsemi heq hall hpne
    refine ⟨_, henc, ⟨c.cmd, "SET".toList, c.params⟩, hdec, ?_⟩
    simp [nameUpper, hty]
  · next hty1 =>
    split at hrest
    · next hty =>
      simp only [decide_eq_true_eq] at hrest
      obtain ⟨henc, hdec⟩ := roundtrip_read c hty hcne hA hT hE hQ
      refine ⟨_, henc, _, hdec, ?_⟩
      simp [nameUpper, hty, hrest, pyUpper_idem]
    · next hty2 =>
      split at hrest
      · next hty =>
        simp only [decide_eq_true_eq] at hrest
        obtain ⟨henc, hdec⟩ := roundtrip_test c hty hcne hA hT hE hQ
        refine ⟨_, henc, _, hdec, ?_⟩
        simp [nameUpper, hty, hrest, pyUpper_idem]
      · exact Bool.noConfusion hrest

theorem C1_roundtrip_wf_witness :
    wfCmd ⟨"+W".toList, "SET".toList, [.int 5, .arr [.int 1, .none], .none]⟩ = true ∧
    ∃ s : Str,
      encode_command [⟨"+W".toList, "SET".toList, [.int 5, .arr [.int 1, .none], .none]⟩]
        = .ok s ∧
      ∃ c2 : AtCmd, parse_string s = .ok (.cmd c2) ∧
        nameUpper c2 =
          nameUpper ⟨"+W".toList, "SET".toList, [.int 5, .arr [.int 1, .none], .none]⟩ :=
  ⟨by decide, C1_roundtrip_wf _ (by decide)⟩

end AT
